import Mathlib

/-!
Shallow embedding of the bencode-rs decoder (src/lib.rs), a nom-based
Bencode parser.  Inputs are byte buffers modelled as `List Nat`
(one entry per byte).  The nom combinators used by the source
(`char`, `digit1`, `take`, `eof`, `alt`, `delimited`, `preceded`,
`pair`, `recognize`, `many_till`, `many0`) are modelled faithfully,
including the error taxonomy: `nom::Err::Error` (recoverable) is the
`err` outcome, `nom::Err::Failure` (fatal) is the `fail` outcome.
The two panic sites in the source (the `from_utf8 … expect` calls and
the `unreachable!()` in `parse_dict`) are modelled by an explicit
`panicked` outcome.  The mutual recursion of the grammar rules is
modelled with an explicit fuel parameter and an `outOfFuel` outcome;
fuel adequacy (`input.length < fuel` suffices) is proved below, which
is the termination argument for the Rust code.
-/

namespace Bencode

/-- The `nom::error::ErrorKind` values that the decoder can produce.
`BencodeError::append` returns its `other` argument, so the `Alt` and
`ManyTill` kinds produced by `append` are discarded; the `ManyTill` and
`Many0` kinds below are the ones produced by `from_error_kind` in the
zero-consumption checks of `many_till` / `many0`. -/
inductive NomKind where
  | char
  | digit
  | eof
  | manyTill
  | many0
deriving DecidableEq, Repr

/-- `BencodeError<I>` from the source.  `ParseIntError` carries the
`std` error payload in Rust; only the input position matters here. -/
inductive BErr where
  | nomErr : List Nat → NomKind → BErr
  | invalidInteger : List Nat → BErr
  | parseIntError : List Nat → BErr
  | invalidBytesLength : List Nat → BErr
deriving DecidableEq, Repr

/-- Outcome of a parser: `ok rest value` for success,
`err` for `nom::Err::Error` (recoverable), `fail` for
`nom::Err::Failure` (fatal), `panicked` for a Rust panic
(`expect` / `unreachable!`), `outOfFuel` for fuel exhaustion of the
embedding (shown below never to occur with adequate fuel). -/
inductive PResult (α : Type) where
  | ok : List Nat → α → PResult α
  | err : BErr → PResult α
  | fail : BErr → PResult α
  | panicked : PResult α
  | outOfFuel : PResult α
deriving Repr

/-- `Value<'a>` from the source.  `Dictionary` is a `HashMap`; it is
modelled as an association list built by successive inserts (the
observable behaviour of `HashMap::from_iter`: later inserts overwrite
earlier ones on key collision). -/
inductive Value where
  | bytes : List Nat → Value
  | integer : Int → Value
  | list : List Value → Value
  | dictionary : List (List Nat × Value) → Value
deriving Repr

/-- ASCII decimal digit test (`u8::is_dec_digit`). -/
def isDigitB (b : Nat) : Bool := 48 ≤ b && b ≤ 57

/-- `nom::character::complete::char(c)`: consume one byte equal to `c`
or fail recoverably with `ErrorKind::Char`. -/
def pChar (c : Nat) (input : List Nat) : Except BErr (List Nat × Nat) :=
  match input with
  | [] => .error (.nomErr input .char)
  | b :: rest => if b = c then .ok (rest, b) else .error (.nomErr input .char)

/-- `nom::character::complete::digit1`: consume a maximal nonempty run
of ASCII digits or fail recoverably with `ErrorKind::Digit`. -/
def pDigit1 (input : List Nat) : Except BErr (List Nat × List Nat) :=
  let ds := input.takeWhile isDigitB
  if ds.isEmpty then .error (.nomErr input .digit)
  else .ok (input.drop ds.length, ds)

/-- `nom::bytes::complete::take(n)`: consume exactly `n` bytes or fail
recoverably with `ErrorKind::Eof`. -/
def pTake (n : Nat) (input : List Nat) : Except BErr (List Nat × List Nat) :=
  if n ≤ input.length then .ok (input.drop n, input.take n)
  else .error (.nomErr input .eof)

/-- `nom::combinator::eof`: succeed exactly on the empty remainder. -/
def pEof (input : List Nat) : Except BErr (List Nat × List Nat) :=
  if input.isEmpty then .ok (input, input)
  else .error (.nomErr input .eof)

/-- Numeric value of a big-endian ASCII digit run, accumulated the way
Rust's `FromStr` for integers does. -/
def digitsVal (ds : List Nat) : Nat :=
  ds.foldl (fun acc d => 10 * acc + (d - 48)) 0

/-- Model of `str::parse::<i64>()` on the strings the decoder feeds it:
an optional `+`/`-` sign followed by decimal digits.  Rust's checked
accumulation overflows exactly when the denoted value leaves the `i64`
range, so the model is value-based. -/
def parseI64 (item : List Nat) : Option Int :=
  let sd : Bool × List Nat :=
    match item with
    | b :: rest =>
      if b = 43 then (false, rest)
      else if b = 45 then (true, rest)
      else (false, item)
    | [] => (false, item)
  if sd.2.isEmpty || !sd.2.all isDigitB then none
  else
    let v : Int := if sd.1 then -(digitsVal sd.2 : Int) else (digitsVal sd.2 : Int)
    if -(2 ^ 63) ≤ v ∧ v ≤ 2 ^ 63 - 1 then some v else none

/-- Model of `str::parse::<u64>()`: an optional `+` sign followed by
decimal digits; overflow exactly when the value is `≥ 2^64`. -/
def parseU64 (item : List Nat) : Option Nat :=
  let ds : List Nat :=
    match item with
    | b :: rest => if b = 43 then rest else item
    | [] => item
  if ds.isEmpty || !ds.all isDigitB then none
  else if digitsVal ds < 2 ^ 64 then some (digitsVal ds) else none

/-- The `alt((recognize(pair(char(s), digit1)), …))` branches of
`parse_integer`: consume sign byte `s` then a digit run, returning the
recognized slice `s :: digits`. -/
def recognizeSign (s : Nat) (input : List Nat) : Except BErr (List Nat × List Nat) :=
  match pChar s input with
  | .error e => .error e
  | .ok (i1, _) =>
    match pDigit1 i1 with
    | .error e => .error e
    | .ok (i2, ds) => .ok (i2, s :: ds)

/-- The inner `alt` of `parse_integer`:
`alt((recognize(pair(char('+'), digit1)), recognize(pair(char('-'), digit1)), digit1))`.
`BencodeError`'s `or` (the nom default) keeps the later error and its
`append` returns `other`, so when all branches fail the `alt` yields
the last branch's error. -/
def signedDigits (input : List Nat) : Except BErr (List Nat × List Nat) :=
  match recognizeSign 43 input with
  | .ok r => .ok r
  | .error _ =>
    match recognizeSign 45 input with
    | .ok r => .ok r
    | .error _ => pDigit1 input

/-- All bytes ASCII; on the items the decoder builds (sign and digit
bytes) this is exactly when `std::str::from_utf8` succeeds, so the
`expect` panic fires exactly on its failure. -/
def allAscii (item : List Nat) : Bool := item.all (· ≤ 127)

/-- `Value::parse_integer` from the source:
`delimited(char('i'), alt(…), char('e'))`, then the `from_utf8 expect`,
then the `-0` / leading-zero fatal check, then `str::parse::<i64>()`
whose error is mapped to the fatal `ParseIntError`. -/
def parse_integer (input : List Nat) : PResult Value :=
  match pChar 105 input with
  | .error e => .err e
  | .ok (i1, _) =>
    match signedDigits i1 with
    | .error e => .err e
    | .ok (i2, item) =>
      match pChar 101 i2 with
      | .error e => .err e
      | .ok (next, _) =>
        if !allAscii item then .panicked
        else if (item.head? = some 45 && item.tail.head? = some 48)
                || (item.head? = some 48 && item.length > 1) then
          .fail (.invalidInteger input)
        else
          match parseI64 item with
          | none => .fail (.parseIntError next)
          | some n => .ok next (.integer n)

/-- `Value::parse_bytes` from the source: `digit1`, `char(':')`, the
`from_utf8 expect`, `str::parse::<u64>()` (fatal `ParseIntError` on
overflow), the fatal zero-length check, then `take(length)`. -/
def parse_bytes (input : List Nat) : PResult Value :=
  match pDigit1 input with
  | .error e => .err e
  | .ok (i1, lengthDs) =>
    match pChar 58 i1 with
    | .error e => .err e
    | .ok (i2, _) =>
      if !allAscii lengthDs then .panicked
      else
        match parseU64 lengthDs with
        | none => .fail (.parseIntError i2)
        | some len =>
          if len = 0 then .fail (.invalidBytesLength i2)
          else
            match pTake len i2 with
            | .error e => .err e
            | .ok (next, item) => .ok next (.bytes item)

/-- `alt` over two already-computed branch results.  `BencodeError`'s
`or` keeps the later error and its `append` discards the `Alt` kind,
so the combinator reduces to: return the first non-`err` outcome, else
the last `err`. -/
def altOr {α : Type} (a b : PResult α) : PResult α :=
  match a with
  | .err _ => b
  | r => r

/-- `many_till(value-alt, char('e'))` used by `parse_list`, generic in
the item parser `pv`.  Mirrors nom's loop: try the terminator, else
run `pv` (its `append` to `ManyTill` returns the inner error
unchanged), with the zero-consumption check producing
`ErrorKind::ManyTill`. -/
def manyTillVal (pv : List Nat → PResult Value) : Nat → List Nat → PResult (List Value)
  | 0, _ => .outOfFuel
  | fuel + 1, i =>
    match pChar 101 i with
    | .ok (i1, _) => .ok i1 []
    | .error _ =>
      match pv i with
      | .err e => .err e
      | .fail e => .fail e
      | .panicked => .panicked
      | .outOfFuel => .outOfFuel
      | .ok i1 v =>
        if i1.length = i.length then .err (.nomErr i .manyTill)
        else
          match manyTillVal pv fuel i1 with
          | .ok i2 vs => .ok i2 (v :: vs)
          | r => r

/-- `many_till(pair(parse_bytes, value-alt), char('e'))` used by
`parse_dict`, generic in the value parser `pv`.  The pair keeps the
key exactly as `parse_bytes` returned it (a `Value`), as the source
does before the `unreachable!()` match. -/
def manyTillKV (pv : List Nat → PResult Value) : Nat → List Nat → PResult (List (Value × Value))
  | 0, _ => .outOfFuel
  | fuel + 1, i =>
    match pChar 101 i with
    | .ok (i1, _) => .ok i1 []
    | .error _ =>
      match parse_bytes i with
      | .err e => .err e
      | .fail e => .fail e
      | .panicked => .panicked
      | .outOfFuel => .outOfFuel
      | .ok i1 k =>
        match pv i1 with
        | .err e => .err e
        | .fail e => .fail e
        | .panicked => .panicked
        | .outOfFuel => .outOfFuel
        | .ok i2 v =>
          if i2.length = i.length then .err (.nomErr i .manyTill)
          else
            match manyTillKV pv fuel i2 with
            | .ok i3 kvs => .ok i3 ((k, v) :: kvs)
            | r => r

/-- `Value::parse_list` body, generic in the recursive value parser:
`preceded(char('l'), many_till(alt(…), char('e')))`. -/
def parse_listF (pv : List Nat → PResult Value) (fuel : Nat) (input : List Nat) : PResult Value :=
  match pChar 108 input with
  | .error e => .err e
  | .ok (i1, _) =>
    match manyTillVal pv fuel i1 with
    | .ok i2 vs => .ok i2 (.list vs)
    | .err e => .err e
    | .fail e => .fail e
    | .panicked => .panicked
    | .outOfFuel => .outOfFuel

/-- One `HashMap` insert: overwrite the value if the key is present,
otherwise add the binding. -/
def hmInsert (m : List (List Nat × Value)) (k : List Nat) (v : Value) :
    List (List Nat × Value) :=
  if m.any (fun p => p.1 = k) then m.map (fun p => if p.1 = k then (k, v) else p)
  else m ++ [(k, v)]

/-- `HashMap` lookup on the association-list model. -/
def hmGet (m : List (List Nat × Value)) (k : List Nat) : Option Value :=
  (m.find? (fun p => p.1 = k)).map (fun p => p.2)

/-- The `map` over the collected pairs in `parse_dict`: extract the
key bytes, or hit the `unreachable!()` (modelled as `none`) when the
first component is not the `Bytes` variant. -/
def toPairs : List (Value × Value) → Option (List (List Nat × Value))
  | [] => some []
  | (.bytes k, v) :: rest => (toPairs rest).map (fun ps => (k, v) :: ps)
  | _ => none

/-- `HashMap::from_iter` / `collect`: insert the pairs in order. -/
def hmCollect (ps : List (List Nat × Value)) : List (List Nat × Value) :=
  ps.foldl (fun m p => hmInsert m p.1 p.2) []

/-- `Value::parse_dict` body, generic in the recursive value parser:
`preceded(char('d'), many_till(pair(parse_bytes, alt(…)), char('e')))`
followed by the key-extraction map and the `collect`. -/
def parse_dictF (pv : List Nat → PResult Value) (fuel : Nat) (input : List Nat) : PResult Value :=
  match pChar 100 input with
  | .error e => .err e
  | .ok (i1, _) =>
    match manyTillKV pv fuel i1 with
    | .ok i2 kvs =>
      match toPairs kvs with
      | none => .panicked
      | some ps => .ok i2 (.dictionary (hmCollect ps))
    | .err e => .err e
    | .fail e => .fail e
    | .panicked => .panicked
    | .outOfFuel => .outOfFuel

/-- The value dispatcher:
`alt((parse_bytes, parse_integer, parse_list, parse_dict))`, with the
mutual recursion paid for by one unit of fuel. -/
def parse_value : Nat → List Nat → PResult Value
  | 0, _ => .outOfFuel
  | fuel + 1, input =>
    altOr (parse_bytes input) <|
      altOr (parse_integer input) <|
        altOr (parse_listF (parse_value fuel) fuel input)
          (parse_dictF (parse_value fuel) fuel input)

/-- `Value::parse_list` as an entry point. -/
def parse_list (fuel : Nat) (input : List Nat) : PResult Value :=
  parse_listF (parse_value fuel) fuel input

/-- `Value::parse_dict` as an entry point. -/
def parse_dict (fuel : Nat) (input : List Nat) : PResult Value :=
  parse_dictF (parse_value fuel) fuel input

/-- `many0(alt(…))` from `Value::parse`: collect dispatcher successes
until a recoverable failure, with nom's zero-consumption check
(`ErrorKind::Many0`); fatal failures propagate. -/
def many0Val (pv : List Nat → PResult Value) : Nat → List Nat → PResult (List Value)
  | 0, _ => .outOfFuel
  | fuel + 1, i =>
    match pv i with
    | .err _ => .ok i []
    | .fail e => .fail e
    | .panicked => .panicked
    | .outOfFuel => .outOfFuel
    | .ok i1 v =>
      if i1.length = i.length then .err (.nomErr i .many0)
      else
        match many0Val pv fuel i1 with
        | .ok i2 vs => .ok i2 (v :: vs)
        | r => r

/-- `Value::parse`: `many0(alt(…))` then `eof`.  The Rust function
returns `Result<Vec<Value>, _>`; the `ok` remainder here is the
cursor after `many0`, which `eof` forces to be empty. -/
def parseTop (fuel : Nat) (input : List Nat) : PResult (List Value) :=
  match many0Val (parse_value fuel) fuel input with
  | .ok next result =>
    match pEof next with
    | .error e => .err e
    | .ok _ => .ok next result
  | r => r

/-- Convert a string of ASCII characters to the byte buffer it denotes
(used only to write concrete test inputs readably). -/
def str2b (s : String) : List Nat := s.data.map Char.toNat

/-! ### Facts about the primitive scanners -/

theorem isDigitB_bounds {d : Nat} (h : isDigitB d = true) : 48 ≤ d ∧ d ≤ 57 := by
  simpa [isDigitB] using h

theorem takeWhile_append_all {p : Nat → Bool} :
    ∀ ds t : List Nat, ds.all p = true → (∀ b, t.head? = some b → p b = false) →
      (ds ++ t).takeWhile p = ds
  | [], t, _, ht => by
    cases t with
    | nil => rfl
    | cons b t' => simp [List.takeWhile_cons, ht b rfl]
  | d :: ds, t, hd, ht => by
    simp only [List.all_cons, Bool.and_eq_true] at hd
    simp [List.takeWhile_cons, hd.1, takeWhile_append_all ds t hd.2 ht]

theorem all_takeWhile (p : Nat → Bool) :
    ∀ l : List Nat, (l.takeWhile p).all p = true
  | [] => rfl
  | b :: l => by
    by_cases hb : p b = true
    · simp [List.takeWhile_cons, hb, all_takeWhile p l]
    · simp [List.takeWhile_cons, Bool.eq_false_iff.mpr hb]

theorem head_dropWhile (p : Nat → Bool) :
    ∀ l : List Nat, ∀ b, (l.dropWhile p).head? = some b → p b = false
  | [], b => by simp [List.dropWhile]
  | x :: l, b => by
    by_cases hx : p x = true
    · simpa [List.dropWhile_cons, hx] using head_dropWhile p l b
    · simp only [Bool.not_eq_true] at hx
      simp [List.dropWhile_cons, hx]
      rintro rfl
      exact hx

theorem pDigit1_run {ds t : List Nat} (hne : ds ≠ []) (hd : ds.all isDigitB = true)
    (ht : ∀ b, t.head? = some b → isDigitB b = false) :
    pDigit1 (ds ++ t) = .ok (t, ds) := by
  unfold pDigit1
  simp only [takeWhile_append_all ds t hd ht, List.isEmpty_iff, hne, if_false,
    List.drop_left]

theorem pDigit1_none {input : List Nat}
    (h : ∀ b, input.head? = some b → isDigitB b = false) :
    pDigit1 input = .error (.nomErr input .digit) := by
  unfold pDigit1
  cases input with
  | nil => rfl
  | cons b t => simp [List.takeWhile_cons, h b rfl]

theorem drop_length_takeWhile (p : Nat → Bool) :
    ∀ l : List Nat, l.drop (l.takeWhile p).length = l.dropWhile p
  | [] => rfl
  | b :: l => by
    by_cases hb : p b = true
    · simp [List.takeWhile_cons, List.dropWhile_cons, hb, drop_length_takeWhile p l]
    · simp [List.takeWhile_cons, List.dropWhile_cons, hb]

theorem pDigit1_ok_inv {input r ds : List Nat} (h : pDigit1 input = .ok (r, ds)) :
    ds ≠ [] ∧ ds.all isDigitB = true ∧ input = ds ++ r ∧
      (∀ b, r.head? = some b → isDigitB b = false) := by
  unfold pDigit1 at h
  by_cases he : (input.takeWhile isDigitB).isEmpty = true
  · simp [he] at h
  · simp only [he, if_false, Except.ok.injEq, Prod.mk.injEq] at h
    -- both components of `h` are equations on variables and are
    -- substituted automatically by `obtain`
    obtain ⟨rfl, rfl⟩ := h
    have hdrop : input.drop (input.takeWhile isDigitB).length =
        input.dropWhile isDigitB := drop_length_takeWhile isDigitB input
    refine ⟨by simpa [List.isEmpty_iff] using he, all_takeWhile _ _, ?_, ?_⟩
    · rw [hdrop]
      exact (List.takeWhile_append_dropWhile isDigitB input).symm
    · intro b hb
      rw [hdrop] at hb
      exact head_dropWhile isDigitB input b hb

theorem ascii_of_digits {ds : List Nat} (hd : ds.all isDigitB = true) :
    allAscii ds = true := by
  simp only [allAscii, List.all_eq_true, decide_eq_true_eq]
  simp only [List.all_eq_true] at hd
  intro x hx
  exact le_trans (isDigitB_bounds (hd x hx)).2 (by norm_num)

/-! ### The shape of integer tokens -/

/-- The shape of a valid integer token at the head of the buffer:
`i`, an optional sign, a nonempty digit run, the terminating `e`,
then the rest.  Because `e` is not a digit, the digit run of any such
decomposition is automatically the maximal run the parser scans. -/
def IntShape (input sgn ds rest : List Nat) : Prop :=
  input = 105 :: (sgn ++ (ds ++ 101 :: rest)) ∧
    (sgn = [] ∨ sgn = [43] ∨ sgn = [45]) ∧ ds ≠ [] ∧ ds.all isDigitB = true

/-- The mathematically exact integer denoted by a sign and digit run. -/
def intDenoted (sgn ds : List Nat) : Int :=
  if sgn = [45] then -(digitsVal ds : Int) else (digitsVal ds : Int)

theorem signedDigits_run {sgn ds t : List Nat}
    (hsgn : sgn = [] ∨ sgn = [43] ∨ sgn = [45]) (hne : ds ≠ [])
    (hd : ds.all isDigitB = true)
    (ht : ∀ b, t.head? = some b → isDigitB b = false) :
    signedDigits (sgn ++ (ds ++ t)) = .ok (t, sgn ++ ds) := by
  obtain ⟨d, ds', rfl⟩ := List.exists_cons_of_ne_nil hne
  have hd0 : isDigitB d = true := by
    simp only [List.all_cons, Bool.and_eq_true] at hd
    exact hd.1
  have hdb := isDigitB_bounds hd0
  have hr : pDigit1 (d :: (ds' ++ t)) = .ok (t, d :: ds') := by
    simpa using @pDigit1_run (d :: ds') t hne hd ht
  rcases hsgn with rfl | rfl | rfl
  · have h43 : d ≠ 43 := by omega
    have h45 : d ≠ 45 := by omega
    simp [signedDigits, recognizeSign, pChar, h43, h45, hr]
  · simp [signedDigits, recognizeSign, pChar, hr]
  · simp [signedDigits, recognizeSign, pChar, hr]

theorem parseI64_pos {d : Nat} {ds' : List Nat} (h43 : d ≠ 43) (h45 : d ≠ 45)
    (hd : (d :: ds').all isDigitB = true) :
    parseI64 (d :: ds') =
      if -(2 ^ 63) ≤ (digitsVal (d :: ds') : Int) ∧
          (digitsVal (d :: ds') : Int) ≤ 2 ^ 63 - 1 then
        some ((digitsVal (d :: ds') : Int))
      else none := by
  simp [parseI64, h43, h45, hd]

theorem parseI64_plus {ds : List Nat} (hne : ds ≠ []) (hd : ds.all isDigitB = true) :
    parseI64 (43 :: ds) =
      if -(2 ^ 63) ≤ (digitsVal ds : Int) ∧ (digitsVal ds : Int) ≤ 2 ^ 63 - 1 then
        some ((digitsVal ds : Int))
      else none := by
  simp [parseI64, hne, hd, List.isEmpty_iff]

theorem parseI64_minus {ds : List Nat} (hne : ds ≠ []) (hd : ds.all isDigitB = true) :
    parseI64 (45 :: ds) =
      if -(2 ^ 63) ≤ (-(digitsVal ds : Int)) ∧ (-(digitsVal ds : Int)) ≤ 2 ^ 63 - 1 then
        some (-(digitsVal ds : Int))
      else none := by
  simp [parseI64, hne, hd, List.isEmpty_iff]

/-- Full characterization of `parse_integer` on any buffer whose head
is a well-shaped integer token: the outcome depends only on the fatal
checks and on the `i64` range of the denoted value. -/
theorem parse_integer_of_run {sgn ds rest : List Nat}
    (hsgn : sgn = [] ∨ sgn = [43] ∨ sgn = [45]) (hne : ds ≠ [])
    (hd : ds.all isDigitB = true) :
    parse_integer (105 :: (sgn ++ (ds ++ 101 :: rest))) =
      (if (sgn = [45] ∧ ds.head? = some 48) ∨
          (sgn = [] ∧ ds.head? = some 48 ∧ 1 < ds.length) then
        .fail (.invalidInteger (105 :: (sgn ++ (ds ++ 101 :: rest))))
      else if -(2 ^ 63) ≤ intDenoted sgn ds ∧ intDenoted sgn ds ≤ 2 ^ 63 - 1 then
        .ok rest (.integer (intDenoted sgn ds))
      else .fail (.parseIntError rest)) := by
  have hte : ∀ b, (101 :: rest).head? = some b → isDigitB b = false := by
    rintro b hb
    simp only [List.head?_cons, Option.some.injEq] at hb
    subst hb; rfl
  obtain ⟨d, ds', rfl⟩ := List.exists_cons_of_ne_nil hne
  have hd0 : isDigitB d = true := by
    simp only [List.all_cons, Bool.and_eq_true] at hd
    exact hd.1
  have hdb := isDigitB_bounds hd0
  have hrun := @signedDigits_run sgn (d :: ds') (101 :: rest) hsgn hne hd hte
  have hascii : allAscii (sgn ++ d :: ds') = true := by
    have := ascii_of_digits hd
    rcases hsgn with rfl | rfl | rfl <;> simp_all [allAscii]
  have h43 : d ≠ 43 := by omega
  have h45 : d ≠ 45 := by omega
  rcases hsgn with rfl | rfl | rfl
  · simp only [List.nil_append, List.cons_append, List.singleton_append]
      at hrun hascii ⊢
    by_cases h48 : d = 48
    · subst h48
      cases ds' with
      | nil =>
        simp only [List.nil_append, List.cons_append, List.singleton_append]
          at hrun
        simp [parse_integer, pChar, hrun, hascii, parseI64_pos h43 h45 hd,
          intDenoted, digitsVal]
      | cons x xs =>
        simp only [List.cons_append] at hrun
        simp [parse_integer, pChar, hrun, hascii]
    · simp [parse_integer, pChar, hrun, hascii, h48, h45,
        parseI64_pos h43 h45 hd, intDenoted]
      split <;> rename_i heq <;> split at heq <;> simp_all
      all_goals rw [if_neg (by omega)]
  · simp only [List.cons_append, List.singleton_append, List.nil_append]
      at hrun hascii ⊢
    simp [parse_integer, pChar, hrun, hascii, parseI64_plus hne hd, intDenoted]
    split <;> rename_i heq <;> split at heq <;> simp_all
    all_goals rw [if_neg (by omega)]
  · simp only [List.cons_append, List.singleton_append, List.nil_append]
      at hrun hascii ⊢
    by_cases h48 : d = 48
    · subst h48
      simp [parse_integer, pChar, hrun, hascii]
    · simp [parse_integer, pChar, hrun, hascii, h48, parseI64_minus hne hd,
        intDenoted]
      split <;> rename_i heq <;> split at heq <;> simp_all
      all_goals rw [if_neg (by omega)]

/-- C1: for every buffer that starts with a valid integer encoding
(`i`, optional sign, digit run with no leading zero, not negative
zero, terminating `e`) whose value fits in `i64`, `parse_integer`
succeeds with the exact denoted value and leaves exactly the bytes
after the `e`. -/
theorem c1_integer_valid_decode (input sgn ds rest : List Nat)
    (hshape : IntShape input sgn ds rest)
    (hlz : ds.head? = some 48 → ds = [48])
    (hnz : ¬(sgn = [45] ∧ ds = [48]))
    (hlo : -(2 ^ 63) ≤ intDenoted sgn ds)
    (hhi : intDenoted sgn ds ≤ 2 ^ 63 - 1) :
    parse_integer input = .ok rest (.integer (intDenoted sgn ds)) := by
  obtain ⟨rfl, hsgn, hne, hd⟩ := hshape
  rw [parse_integer_of_run hsgn hne hd]
  rw [if_neg, if_pos ⟨hlo, hhi⟩]
  rintro (⟨hs, h48⟩ | ⟨hs, h48, hlen⟩)
  · exact hnz ⟨hs, hlz h48⟩
  · rw [hlz h48] at hlen
    simp at hlen

theorem parseU64_digits {ds : List Nat} (hne : ds ≠ [])
    (hd : ds.all isDigitB = true) :
    parseU64 ds = if digitsVal ds < 2 ^ 64 then some (digitsVal ds) else none := by
  obtain ⟨d, ds', rfl⟩ := List.exists_cons_of_ne_nil hne
  have hd0 : isDigitB d = true := by
    simp only [List.all_cons, Bool.and_eq_true] at hd
    exact hd.1
  have hdb := isDigitB_bounds hd0
  have h43 : d ≠ 43 := by omega
  simp [parseU64, h43, hd]

/-- Full characterization of `parse_bytes` on any buffer that starts
with a digit run followed by `:`: the outcome depends only on the
`u64` range of the declared length, the zero-length check and the
available payload. -/
theorem parse_bytes_of_run {ds t : List Nat} (hne : ds ≠ [])
    (hd : ds.all isDigitB = true) :
    parse_bytes (ds ++ 58 :: t) =
      (if digitsVal ds < 2 ^ 64 then
        if digitsVal ds = 0 then .fail (.invalidBytesLength t)
        else if digitsVal ds ≤ t.length then
          .ok (t.drop (digitsVal ds)) (.bytes (t.take (digitsVal ds)))
        else .err (.nomErr t .eof)
      else .fail (.parseIntError t)) := by
  have ht : ∀ b, (58 :: t).head? = some b → isDigitB b = false := by
    rintro b hb
    simp only [List.head?_cons, Option.some.injEq] at hb
    subst hb; rfl
  have hrun := @pDigit1_run ds (58 :: t) hne hd ht
  have hascii := ascii_of_digits hd
  by_cases h64 : digitsVal ds < 2 ^ 64
  · have h64n : digitsVal ds < 18446744073709551616 := by omega
    by_cases h0 : digitsVal ds = 0
    · simp [parse_bytes, hrun, pChar, hascii, parseU64_digits hne hd, h64n, h0]
    · by_cases hlen : digitsVal ds ≤ t.length
      · simp [parse_bytes, hrun, pChar, hascii, parseU64_digits hne hd, h64n,
          h0, pTake, hlen]
      · simp [parse_bytes, hrun, pChar, hascii, parseU64_digits hne hd, h64n,
          h0, pTake, hlen]
  · have h64n : ¬ digitsVal ds < 18446744073709551616 := by omega
    simp [parse_bytes, hrun, pChar, hascii, parseU64_digits hne hd, h64n]

/-- C5: for every declared length `L > 0` (written as any digit run
denoting `L`, a `u64`) and any payload of at least `L` bytes,
`parse_bytes` succeeds, returns exactly the first `L` payload bytes,
and leaves everything after them unconsumed, whatever those trailing
bytes are. -/
theorem c5_bytes_exact_take (ds payload : List Nat) (L : Nat)
    (hne : ds ≠ []) (hd : ds.all isDigitB = true)
    (hval : digitsVal ds = L) (hpos : 0 < L) (hfit : L < 2 ^ 64)
    (hlen : L ≤ payload.length) :
    parse_bytes (ds ++ 58 :: payload) =
      .ok (payload.drop L) (.bytes (payload.take L)) := by
  subst hval
  rw [parse_bytes_of_run hne hd]
  rw [if_pos hfit, if_neg (by omega), if_pos hlen]

/-- Witness for C5 at the concrete input `3:abcde` (length 3,
payload `abcde`). -/
theorem c5_witness :
    parse_bytes ([51] ++ 58 :: str2b "abcde") =
      .ok ((str2b "abcde").drop 3) (.bytes ((str2b "abcde").take 3)) :=
  c5_bytes_exact_take [51] (str2b "abcde") 3 (by decide) (by decide) (by decide)
    (by decide) (by decide) (by decide)

/-- C6: `parse_bytes` fails fatally with `InvalidBytesLength` whenever
the digit run before `:` denotes `0`; a digit run not followed by `:`,
an input not starting with a digit, and a payload shorter than the
declared length each fail recoverably. -/
theorem c6_bytes_error_taxonomy :
    (∀ ds rest : List Nat, ds ≠ [] → ds.all isDigitB = true → digitsVal ds = 0 →
      parse_bytes (ds ++ 58 :: rest) = .fail (.invalidBytesLength rest)) ∧
    (∀ input : List Nat, (∀ b, input.head? = some b → isDigitB b = false) →
      parse_bytes input = .err (.nomErr input .digit)) ∧
    (∀ ds t : List Nat, ds ≠ [] → ds.all isDigitB = true →
      (∀ b, t.head? = some b → isDigitB b = false ∧ b ≠ 58) →
      parse_bytes (ds ++ t) = .err (.nomErr t .char)) ∧
    (∀ ds payload : List Nat, ds ≠ [] → ds.all isDigitB = true →
      0 < digitsVal ds → digitsVal ds < 2 ^ 64 →
      payload.length < digitsVal ds →
      parse_bytes (ds ++ 58 :: payload) = .err (.nomErr payload .eof)) := by
  refine ⟨?_, ?_, ?_, ?_⟩
  · intro ds rest hne hd h0
    rw [parse_bytes_of_run hne hd, if_pos (show digitsVal ds < 2 ^ 64 by omega),
      if_pos h0]
  · intro input h
    simp [parse_bytes, pDigit1_none h]
  · intro ds t hne hd ht
    have hrun := @pDigit1_run ds t hne hd (fun b hb => (ht b hb).1)
    cases t with
    | nil =>
      simp only [List.append_nil] at hrun
      simp [parse_bytes, hrun, pChar]
    | cons b t' =>
      have hb := ht b rfl
      simp [parse_bytes, hrun, pChar, hb.2]
  · intro ds payload hne hd h0 h64 hshort
    rw [parse_bytes_of_run hne hd, if_pos h64, if_neg (by omega),
      if_neg (by omega)]

/-- Witness for C6: the input `0:x` declares length `0` and fails
fatally with `InvalidBytesLength`. -/
theorem c6_witness :
    parse_bytes ([48] ++ 58 :: [120]) = .fail (.invalidBytesLength [120]) :=
  c6_bytes_error_taxonomy.1 [48] [120] (by decide) (by decide) (by decide)

/-- Witness for C1 at the concrete input `i-37eX`. -/
theorem c1_witness :
    parse_integer (105 :: ([45] ++ ([51, 55] ++ 101 :: [88]))) =
      .ok [88] (.integer (intDenoted [45] [51, 55])) :=
  c1_integer_valid_decode _ [45] [51, 55] [88]
    ⟨rfl, by simp, by simp, by decide⟩ (by decide) (by decide) (by decide) (by decide)

/-! ### C2: the dispatcher and the two-tier error discipline -/

/-- Counterexample for C2: at the input `x` every grammar rule fails
recoverably, the byte-string rule (the first alternative) fails with
`ErrorKind::Digit`, but the dispatcher propagates the dictionary
rule's `ErrorKind::Char` failure — `BencodeError`'s `or` (the nom
default) keeps the later error, so `alt` yields the last rule's
failure, not the first's. -/
theorem c2_counterexample :
    parse_bytes [120] = .err (.nomErr [120] .digit) ∧
    parse_integer [120] = .err (.nomErr [120] .char) ∧
    parse_list 1 [120] = .err (.nomErr [120] .char) ∧
    parse_dict 1 [120] = .err (.nomErr [120] .char) ∧
    parse_value 2 [120] = .err (.nomErr [120] .char) ∧
    NomKind.char ≠ NomKind.digit :=
  ⟨rfl, rfl, rfl, rfl, rfl, by decide⟩

/-- C2 (amended): whenever all four grammar rules fail recoverably at
a value position, the dispatcher propagates the *last* rule's (the
dictionary rule's) recoverable failure; whenever a rule fails with a
non-recoverable condition, that fatal error is surfaced immediately
without trying further alternatives. -/
theorem c2_amended_dispatch (fuel : Nat) (input : List Nat) :
    (∀ e, parse_bytes input = .fail e → parse_value (fuel + 1) input = .fail e) ∧
    (∀ e₁ e, parse_bytes input = .err e₁ → parse_integer input = .fail e →
      parse_value (fuel + 1) input = .fail e) ∧
    (∀ e₁ e₂ e, parse_bytes input = .err e₁ → parse_integer input = .err e₂ →
      parse_list fuel input = .fail e → parse_value (fuel + 1) input = .fail e) ∧
    (∀ e₁ e₂ e₃ e, parse_bytes input = .err e₁ → parse_integer input = .err e₂ →
      parse_list fuel input = .err e₃ → parse_dict fuel input = .fail e →
      parse_value (fuel + 1) input = .fail e) ∧
    (∀ e₁ e₂ e₃ e₄, parse_bytes input = .err e₁ → parse_integer input = .err e₂ →
      parse_list fuel input = .err e₃ → parse_dict fuel input = .err e₄ →
      parse_value (fuel + 1) input = .err e₄) := by
  refine ⟨?_, ?_, ?_, ?_, ?_⟩
  · intro e h1
    simp [parse_value, altOr, h1]
  · intro e₁ e h1 h2
    simp [parse_value, altOr, h1, h2]
  · intro e₁ e₂ e h1 h2 h3
    simp only [parse_list] at h3
    simp [parse_value, altOr, h1, h2, h3]
  · intro e₁ e₂ e₃ e h1 h2 h3 h4
    simp only [parse_list] at h3
    simp only [parse_dict] at h4
    simp [parse_value, altOr, h1, h2, h3, h4]
  · intro e₁ e₂ e₃ e₄ h1 h2 h3 h4
    simp only [parse_list] at h3
    simp only [parse_dict] at h4
    simp [parse_value, altOr, h1, h2, h3, h4]

/-- Witness for the amended C2 at the input `x` with all four rules
failing recoverably. -/
theorem c2_amended_witness :
    parse_value 2 [120] = .err (.nomErr [120] .char) :=
  (c2_amended_dispatch 1 [120]).2.2.2.2 (.nomErr [120] .digit)
    (.nomErr [120] .char) (.nomErr [120] .char) (.nomErr [120] .char)
    rfl rfl rfl rfl

/-! ### C8: the top-level driver consumes the whole buffer -/

/-- C8: `Value::parse` succeeds exactly when the repeated dispatcher
invocations (`many0`) consume the entire buffer: the empty buffer
yields the empty sequence, a success means the cursor reached the end,
and unconsumed trailing bytes turn the whole parse into an `Eof`
failure instead of a truncated result. -/
theorem c8_top_level_whole_buffer (fuel : Nat) :
    (parseTop (fuel + 1) [] = .ok [] []) ∧
    (∀ input r vs, parseTop fuel input = .ok r vs →
      r = [] ∧ many0Val (parse_value fuel) fuel input = .ok [] vs) ∧
    (∀ input next vs, many0Val (parse_value fuel) fuel input = .ok next vs →
      (next = [] → parseTop fuel input = .ok [] vs) ∧
      (next ≠ [] → parseTop fuel input = .err (.nomErr next .eof))) := by
  refine ⟨rfl, ?_, ?_⟩
  · intro input r vs h
    unfold parseTop at h
    cases hm : many0Val (parse_value fuel) fuel input with
    | ok next' vs' =>
      rw [hm] at h
      by_cases hn : next'.isEmpty = true
      · have hnil : next' = [] := by simpa [List.isEmpty_iff] using hn
        subst hnil
        simp only [pEof, List.isEmpty_nil, if_true] at h
        obtain ⟨rfl, rfl⟩ := by simpa using h
        exact ⟨rfl, rfl⟩
      · simp [pEof, hn] at h
    | err e => rw [hm] at h; exact PResult.noConfusion h
    | fail e => rw [hm] at h; exact PResult.noConfusion h
    | panicked => rw [hm] at h; exact PResult.noConfusion h
    | outOfFuel => rw [hm] at h; exact PResult.noConfusion h
  · intro input next vs h
    constructor
    · rintro rfl
      unfold parseTop
      rw [h]
      rfl
    · intro hne
      unfold parseTop
      rw [h]
      have : next.isEmpty = false := by
        cases next with
        | nil => exact absurd rfl hne
        | cons a l => rfl
      simp [pEof, this]

/-- Witness for C8: `i5ex` decodes one integer and leaves `x`, so the
whole parse fails with an `Eof` error rather than succeeding. -/
theorem c8_witness :
    parseTop 5 (str2b "i5ex") = .err (.nomErr [120] .eof) :=
  ((c8_top_level_whole_buffer 5).2.2 (str2b "i5ex") [120]
    [.integer 5] rfl).2 (by decide)

/-! ### Inversion lemmas for the integer rule -/

theorem pChar_ok_inv {c : Nat} {input r : List Nat} {x : Nat}
    (h : pChar c input = .ok (r, x)) : input = c :: r ∧ x = c := by
  cases input with
  | nil => simp [pChar] at h
  | cons b t =>
    by_cases hb : b = c
    · subst hb
      simp only [pChar, if_pos rfl, Except.ok.injEq, Prod.mk.injEq] at h
      obtain ⟨rfl, rfl⟩ := h
      exact ⟨rfl, rfl⟩
    · simp [pChar, hb] at h

theorem recognizeSign_ok_inv {s : Nat} {t i2 item : List Nat}
    (h : recognizeSign s t = .ok (i2, item)) :
    ∃ ds, item = s :: ds ∧ ds ≠ [] ∧ ds.all isDigitB = true ∧
      t = s :: (ds ++ i2) ∧ (∀ b, i2.head? = some b → isDigitB b = false) := by
  unfold recognizeSign at h
  cases hc : pChar s t with
  | error e =>
    simp only [hc] at h
    exact Except.noConfusion h
  | ok p =>
    obtain ⟨t1, x⟩ := p
    simp only [hc] at h
    obtain ⟨rfl, rfl⟩ := pChar_ok_inv hc
    cases hd : pDigit1 t1 with
    | error e =>
      simp only [hd] at h
      exact Except.noConfusion h
    | ok q =>
      obtain ⟨i2x, ds⟩ := q
      simp only [hd, Except.ok.injEq, Prod.mk.injEq] at h
      obtain ⟨rfl, rfl⟩ := h
      obtain ⟨hne, hall, happ, hhead⟩ := pDigit1_ok_inv hd
      exact ⟨ds, rfl, hne, hall, by rw [happ], hhead⟩

theorem signedDigits_ok_inv {t i2 item : List Nat}
    (h : signedDigits t = .ok (i2, item)) :
    ∃ sgn ds, (sgn = [] ∨ sgn = [43] ∨ sgn = [45]) ∧ item = sgn ++ ds ∧
      ds ≠ [] ∧ ds.all isDigitB = true ∧ t = sgn ++ (ds ++ i2) ∧
      (∀ b, i2.head? = some b → isDigitB b = false) := by
  unfold signedDigits at h
  cases h43 : recognizeSign 43 t with
  | ok r =>
    simp only [h43, Except.ok.injEq] at h
    obtain ⟨i2x, itemx⟩ := r
    simp only [Prod.mk.injEq] at h
    obtain ⟨rfl, rfl⟩ := h
    obtain ⟨ds, rfl, hne, hall, ht, hhead⟩ := recognizeSign_ok_inv h43
    exact ⟨[43], ds, by simp, rfl, hne, hall, by simpa using ht, hhead⟩
  | error e =>
    rw [h43] at h
    cases h45 : recognizeSign 45 t with
    | ok r =>
      simp only [h45, Except.ok.injEq] at h
      obtain ⟨i2x, itemx⟩ := r
      simp only [Prod.mk.injEq] at h
      obtain ⟨rfl, rfl⟩ := h
      obtain ⟨ds, rfl, hne, hall, ht, hhead⟩ := recognizeSign_ok_inv h45
      exact ⟨[45], ds, by simp, rfl, hne, hall, by simpa using ht, hhead⟩
    | error e2 =>
      rw [h45] at h
      obtain ⟨hne, hall, happ, hhead⟩ := pDigit1_ok_inv h
      exact ⟨[], item, by simp, by simp, hne, hall, by simpa using happ, hhead⟩

/-- Any run of `parse_integer` either fails recoverably or the input
decomposes as a well-shaped integer token. -/
theorem parse_integer_progress (input : List Nat) :
    (∃ e, parse_integer input = .err e) ∨
      ∃ sgn ds rest, IntShape input sgn ds rest := by
  cases hc : pChar 105 input with
  | error e => exact .inl ⟨e, by simp [parse_integer, hc]⟩
  | ok p =>
    obtain ⟨i1, x⟩ := p
    obtain ⟨rfl, rfl⟩ := pChar_ok_inv hc
    cases hs : signedDigits i1 with
    | error e => exact .inl ⟨e, by simp [parse_integer, hc, hs]⟩
    | ok q =>
      obtain ⟨i2, item⟩ := q
      obtain ⟨sgn, ds, hsgn, rfl, hne, hall, rfl, hhead⟩ := signedDigits_ok_inv hs
      cases he : pChar 101 i2 with
      | error e => exact .inl ⟨e, by simp [parse_integer, hc, hs, he]⟩
      | ok r =>
        obtain ⟨next, y⟩ := r
        obtain ⟨rfl, rfl⟩ := pChar_ok_inv he
        exact .inr ⟨sgn, ds, next, by simp [IntShape, hsgn, hne, hall], hsgn,
          hne, hall⟩

/-- Inversion for a successful `parse_integer`: the input decomposes,
the fatal checks passed, the value is in range and exact. -/
theorem parse_integer_ok_inv {input next : List Nat} {v : Value}
    (h : parse_integer input = .ok next v) :
    ∃ sgn ds, IntShape input sgn ds next ∧ v = .integer (intDenoted sgn ds) ∧
      ¬((sgn = [45] ∧ ds.head? = some 48) ∨
        (sgn = [] ∧ ds.head? = some 48 ∧ 1 < ds.length)) ∧
      -(2 ^ 63) ≤ intDenoted sgn ds ∧ intDenoted sgn ds ≤ 2 ^ 63 - 1 := by
  rcases parse_integer_progress input with ⟨e, he⟩ | ⟨sgn, ds, rest, hshape⟩
  · rw [he] at h; cases h
  · have hcopy := hshape
    obtain ⟨rfl, hsgn, hne, hall⟩ := hshape
    rw [parse_integer_of_run hsgn hne hall] at h
    by_cases h1 : (sgn = [45] ∧ ds.head? = some 48) ∨
        (sgn = [] ∧ ds.head? = some 48 ∧ 1 < ds.length)
    · rw [if_pos h1] at h; cases h
    · rw [if_neg h1] at h
      by_cases h2 : -(2 ^ 63) ≤ intDenoted sgn ds ∧ intDenoted sgn ds ≤ 2 ^ 63 - 1
      · rw [if_pos h2] at h
        simp only [PResult.ok.injEq] at h
        obtain ⟨rfl, rfl⟩ := h
        exact ⟨sgn, ds, hcopy, rfl, h1, h2.1, h2.2⟩
      · rw [if_neg h2] at h; cases h

/-- Inversion for a fatal `parse_integer` failure: the input
decomposes and one of the fatal conditions holds. -/
theorem parse_integer_fail_inv {input : List Nat} {e : BErr}
    (h : parse_integer input = .fail e) :
    ∃ sgn ds rest, IntShape input sgn ds rest ∧
      (((sgn = [45] ∧ ds.head? = some 48) ∨
        (sgn = [] ∧ ds.head? = some 48 ∧ 1 < ds.length)) ∨
       (intDenoted sgn ds < -(2 ^ 63) ∨ 2 ^ 63 - 1 < intDenoted sgn ds)) := by
  rcases parse_integer_progress input with ⟨e2, he⟩ | ⟨sgn, ds, rest, hshape⟩
  · rw [he] at h; cases h
  · have hcopy := hshape
    obtain ⟨rfl, hsgn, hne, hall⟩ := hshape
    rw [parse_integer_of_run hsgn hne hall] at h
    by_cases h1 : (sgn = [45] ∧ ds.head? = some 48) ∨
        (sgn = [] ∧ ds.head? = some 48 ∧ 1 < ds.length)
    · exact ⟨sgn, ds, rest, hcopy, .inl h1⟩
    · rw [if_neg h1] at h
      by_cases h2 : -(2 ^ 63) ≤ intDenoted sgn ds ∧ intDenoted sgn ds ≤ 2 ^ 63 - 1
      · rw [if_pos h2] at h; cases h
      · exact ⟨sgn, ds, rest, hcopy, .inr (by omega)⟩

/-- C4: `parse_integer` fails fatally exactly when the buffer head is
a well-shaped integer token whose text begins with `-0`, or begins
with `0` and has more than one digit, or denotes a value outside the
`i64` range; any other structurally invalid input (missing `i`,
missing digits, missing terminating `e`) is a recoverable failure. -/
theorem c4_integer_fatal_exactly (input : List Nat) :
    ((∃ e, parse_integer input = .fail e) ↔
      ∃ sgn ds rest, IntShape input sgn ds rest ∧
        (((sgn = [45] ∧ ds.head? = some 48) ∨
          (sgn = [] ∧ ds.head? = some 48 ∧ 1 < ds.length)) ∨
         (intDenoted sgn ds < -(2 ^ 63) ∨ 2 ^ 63 - 1 < intDenoted sgn ds))) ∧
    ((¬ ∃ sgn ds rest, IntShape input sgn ds rest) →
      ∃ e, parse_integer input = .err e) := by
  constructor
  · constructor
    · rintro ⟨e, he⟩
      exact parse_integer_fail_inv he
    · rintro ⟨sgn, ds, rest, hshape, hbad⟩
      obtain ⟨rfl, hsgn, hne, hall⟩ := hshape
      rw [parse_integer_of_run hsgn hne hall]
      by_cases h1 : (sgn = [45] ∧ ds.head? = some 48) ∨
          (sgn = [] ∧ ds.head? = some 48 ∧ 1 < ds.length)
      · exact ⟨.invalidInteger _, by rw [if_pos h1]⟩
      · rcases hbad with h1x | h2
        · exact absurd h1x h1
        · refine ⟨.parseIntError rest, ?_⟩
          rw [if_neg h1, if_neg (by omega)]
  · intro hno
    rcases parse_integer_progress input with he | hshape
    · exact he
    · exact absurd hshape hno

/-- Witness for C4: `i-0e` is a well-shaped token beginning with `-0`
and indeed fails fatally. -/
theorem c4_witness : ∃ e, parse_integer (str2b "i-0e") = .fail e :=
  (c4_integer_fatal_exactly (str2b "i-0e")).1.mpr
    ⟨[45], [48], [], ⟨by decide, by simp, by decide, by decide⟩,
      .inl (.inl ⟨rfl, rfl⟩)⟩

/-! ### C3: canonicality of accepted integer texts -/

/-- The canonicality property claimed by the spec for an accepted
integer text, written over its sign and digit run: no leading zero
(except the single digit `0`) and no representation of negative
zero.  This definition follows the spec text, to be compared with
what the code accepts. -/
def canonicalIntText (sgn ds : List Nat) : Bool :=
  (ds.head? ≠ some 48 || ds.length = 1) &&
    !(sgn = [45] && digitsVal ds = 0)

/-- Counterexample for C3: the input `i+01e` is accepted by the
integer rule (yielding `Integer 1`) although its digit run `01` has a
leading zero — the code's leading-zero check only fires for texts
starting with `0` or `-0`, and a `+`-signed text escapes it. -/
theorem c3_counterexample :
    parse_integer (str2b "i+01e") = .ok [] (.integer 1) ∧
    str2b "i+01e" = 105 :: ([43] ++ ([48, 49] ++ 101 :: [])) ∧
    canonicalIntText [43] [48, 49] = false :=
  ⟨rfl, rfl, rfl⟩

theorem foldl_digits_ge (ds : List Nat) (acc : Nat) :
    acc ≤ ds.foldl (fun a x => 10 * a + (x - 48)) acc := by
  induction ds generalizing acc with
  | nil => exact le_refl acc
  | cons x l ih => exact le_trans (by omega) (ih (10 * acc + (x - 48)))

theorem digitsVal_pos_of_head {d : Nat} {ds' : List Nat}
    (h48 : d ≠ 48) (hd : isDigitB d = true) : 0 < digitsVal (d :: ds') := by
  have hb := isDigitB_bounds hd
  have hge := foldl_digits_ge ds' (10 * 0 + (d - 48))
  simp only [digitsVal, List.foldl_cons]
  omega

/-- C3 (amended): every input accepted by the integer rule decomposes
as `i sign? digits e`, the returned value is the mathematically exact
`i64` the text denotes, and the text is canonical (no leading zero
except the single `0`, no negative zero) unless it carries a leading
`+` sign — a `+`-signed digit run may have leading zeros. -/
theorem c3_amended_accepted_inv {input next : List Nat} {v : Value}
    (h : parse_integer input = .ok next v) :
    ∃ sgn ds, IntShape input sgn ds next ∧ v = .integer (intDenoted sgn ds) ∧
      (sgn ≠ [43] → canonicalIntText sgn ds = true) := by
  obtain ⟨sgn, ds, hshape, hv, hchecks, hlo, hhi⟩ := parse_integer_ok_inv h
  refine ⟨sgn, ds, hshape, hv, ?_⟩
  intro hplus
  obtain ⟨_, hsgn, hne, hall⟩ := hshape
  rcases hsgn with rfl | rfl | rfl
  · push_neg at hchecks
    have h2 := hchecks.2 rfl
    unfold canonicalIntText
    by_cases h48 : ds.head? = some 48
    · have hnot := h2 h48
      have hlen1 : 0 < ds.length := List.length_pos.mpr hne
      have hlen : ds.length = 1 := by omega
      simp [h48, hlen]
    · simp [h48]
  · exact absurd rfl hplus
  · push_neg at hchecks
    have h48 : ds.head? ≠ some 48 := hchecks.1 rfl
    obtain ⟨d, ds', rfl⟩ := List.exists_cons_of_ne_nil hne
    have hd0 : isDigitB d = true := by
      simp only [List.all_cons, Bool.and_eq_true] at hall
      exact hall.1
    have hdne : d ≠ 48 := by
      intro hcon
      exact h48 (by simp [hcon])
    have hpos := @digitsVal_pos_of_head d ds' hdne hd0
    have hzero : ¬ digitsVal (d :: ds') = 0 := by omega
    unfold canonicalIntText
    simp [h48, hzero]
    exact Or.inl hdne

/-- Witness for the amended C3 at the accepted input `i5e`. -/
theorem c3_witness :
    ∃ sgn ds, IntShape (str2b "i5e") sgn ds [] ∧
      Value.integer 5 = .integer (intDenoted sgn ds) ∧
      (sgn ≠ [43] → canonicalIntText sgn ds = true) :=
  c3_amended_accepted_inv (rfl :
    parse_integer (str2b "i5e") = .ok [] (.integer 5))

/-! ### Shape, consumption and outcome classification -/

theorem parse_bytes_progress (input : List Nat) :
    (∃ e, parse_bytes input = .err e) ∨
      ∃ ds t, input = ds ++ 58 :: t ∧ ds ≠ [] ∧ ds.all isDigitB = true := by
  cases hd : pDigit1 input with
  | error e => exact .inl ⟨e, by simp [parse_bytes, hd]⟩
  | ok p =>
    obtain ⟨i1, ds⟩ := p
    obtain ⟨hne, hall, happ, hhead⟩ := pDigit1_ok_inv hd
    cases hch : pChar 58 i1 with
    | error e => exact .inl ⟨e, by simp [parse_bytes, hd, hch]⟩
    | ok q =>
      obtain ⟨i2, x⟩ := q
      obtain ⟨rfl, rfl⟩ := pChar_ok_inv hch
      exact .inr ⟨ds, i2, happ, hne, hall⟩

theorem parse_bytes_ok_inv {input r : List Nat} {v : Value}
    (h : parse_bytes input = .ok r v) :
    ∃ ds t, input = ds ++ 58 :: t ∧ ds ≠ [] ∧ ds.all isDigitB = true ∧
      0 < digitsVal ds ∧ digitsVal ds < 2 ^ 64 ∧ digitsVal ds ≤ t.length ∧
      r = t.drop (digitsVal ds) ∧ v = .bytes (t.take (digitsVal ds)) := by
  rcases parse_bytes_progress input with ⟨e, he⟩ | ⟨ds, t, rfl, hne, hall⟩
  · rw [he] at h; exact PResult.noConfusion h
  · rw [parse_bytes_of_run hne hall] at h
    by_cases h64 : digitsVal ds < 2 ^ 64
    · rw [if_pos h64] at h
      by_cases h0 : digitsVal ds = 0
      · rw [if_pos h0] at h; exact PResult.noConfusion h
      · rw [if_neg h0] at h
        by_cases hlen : digitsVal ds ≤ t.length
        · rw [if_pos hlen] at h
          simp only [PResult.ok.injEq] at h
          obtain ⟨rfl, rfl⟩ := h
          exact ⟨ds, t, rfl, hne, hall, by omega, h64, hlen, rfl, rfl⟩
        · rw [if_neg hlen] at h; exact PResult.noConfusion h
    · rw [if_neg h64] at h; exact PResult.noConfusion h

theorem parse_bytes_consumes {input r : List Nat} {v : Value}
    (h : parse_bytes input = .ok r v) : r.length < input.length := by
  obtain ⟨ds, t, rfl, hne, hall, h0, h64, hlen, rfl, rfl⟩ := parse_bytes_ok_inv h
  have hd : 0 < ds.length := List.length_pos.mpr hne
  simp only [List.length_drop, List.length_append, List.length_cons]
  omega

theorem parse_bytes_ok_bytes {input r : List Nat} {v : Value}
    (h : parse_bytes input = .ok r v) : ∃ bs, v = .bytes bs := by
  obtain ⟨ds, t, rfl, hne, hall, h0, h64, hlen, rfl, rfl⟩ := parse_bytes_ok_inv h
  exact ⟨_, rfl⟩

theorem parse_bytes_outcomes (input : List Nat) :
    parse_bytes input ≠ .panicked ∧ parse_bytes input ≠ .outOfFuel := by
  rcases parse_bytes_progress input with ⟨e, he⟩ | ⟨ds, t, rfl, hne, hall⟩
  · rw [he]; exact ⟨PResult.noConfusion, PResult.noConfusion⟩
  · rw [parse_bytes_of_run hne hall]
    constructor <;> intro h <;>
      [skip; skip] <;>
      (by_cases h64 : digitsVal ds < 2 ^ 64
       · rw [if_pos h64] at h
         by_cases h0 : digitsVal ds = 0
         · rw [if_pos h0] at h; exact PResult.noConfusion h
         · rw [if_neg h0] at h
           by_cases hlen : digitsVal ds ≤ t.length
           · rw [if_pos hlen] at h; exact PResult.noConfusion h
           · rw [if_neg hlen] at h; exact PResult.noConfusion h
       · rw [if_neg h64] at h; exact PResult.noConfusion h)

theorem parse_integer_consumes {input r : List Nat} {v : Value}
    (h : parse_integer input = .ok r v) : r.length < input.length := by
  obtain ⟨sgn, ds, hshape, _, _, _, _⟩ := parse_integer_ok_inv h
  obtain ⟨rfl, hsgn, hne, hall⟩ := hshape
  simp only [List.length_cons, List.length_append]
  omega

theorem parse_integer_outcomes (input : List Nat) :
    parse_integer input ≠ .panicked ∧ parse_integer input ≠ .outOfFuel := by
  rcases parse_integer_progress input with ⟨e, he⟩ | ⟨sgn, ds, rest, hshape⟩
  · rw [he]; exact ⟨PResult.noConfusion, PResult.noConfusion⟩
  · obtain ⟨rfl, hsgn, hne, hall⟩ := hshape
    rw [parse_integer_of_run hsgn hne hall]
    constructor <;> intro h <;>
      (by_cases h1 : (sgn = [45] ∧ ds.head? = some 48) ∨
          (sgn = [] ∧ ds.head? = some 48 ∧ 1 < ds.length)
       · rw [if_pos h1] at h; exact PResult.noConfusion h
       · rw [if_neg h1] at h
         by_cases h2 : -(2 ^ 63) ≤ intDenoted sgn ds ∧
             intDenoted sgn ds ≤ 2 ^ 63 - 1
         · rw [if_pos h2] at h; exact PResult.noConfusion h
         · rw [if_neg h2] at h; exact PResult.noConfusion h)

theorem altOr_ok {α : Type} {a b : PResult α} {r : List Nat} {v : α}
    (h : altOr a b = .ok r v) : a = .ok r v ∨ b = .ok r v := by
  unfold altOr at h
  cases a with
  | err e => exact .inr h
  | ok r' v' => exact .inl h
  | fail e => exact PResult.noConfusion h
  | panicked => exact PResult.noConfusion h
  | outOfFuel => exact PResult.noConfusion h

theorem altOr_panicked {α : Type} {a b : PResult α}
    (h : altOr a b = .panicked) : a = .panicked ∨ b = .panicked := by
  unfold altOr at h
  cases a with
  | err e => exact .inr h
  | ok r' v' => exact PResult.noConfusion h
  | fail e => exact PResult.noConfusion h
  | panicked => exact .inl rfl
  | outOfFuel => exact PResult.noConfusion h

theorem altOr_outOfFuel {α : Type} {a b : PResult α}
    (h : altOr a b = .outOfFuel) : a = .outOfFuel ∨ b = .outOfFuel := by
  unfold altOr at h
  cases a with
  | err e => exact .inr h
  | ok r' v' => exact PResult.noConfusion h
  | fail e => exact PResult.noConfusion h
  | panicked => exact PResult.noConfusion h
  | outOfFuel => exact .inl rfl

theorem manyTillVal_consumes {pv : List Nat → PResult Value}
    (hpc : ∀ j r v, pv j = .ok r v → r.length ≤ j.length) :
    ∀ fuel i r vs, manyTillVal pv fuel i = .ok r vs → r.length < i.length := by
  intro fuel
  induction fuel with
  | zero => intro i r vs h; exact PResult.noConfusion h
  | succ f ih =>
    intro i r vs h
    unfold manyTillVal at h
    cases hc : pChar 101 i with
    | ok p =>
      obtain ⟨i1, x⟩ := p
      simp only [hc] at h
      obtain ⟨rfl, rfl⟩ := pChar_ok_inv hc
      simp only [PResult.ok.injEq] at h
      obtain ⟨rfl, rfl⟩ := h
      simp
    | error e =>
      simp only [hc] at h
      cases hv : pv i with
      | ok i1 v =>
        simp only [hv] at h
        by_cases hlen : i1.length = i.length
        · rw [if_pos hlen] at h; exact PResult.noConfusion h
        · rw [if_neg hlen] at h
          have hlt : i1.length < i.length :=
            lt_of_le_of_ne (hpc _ _ _ hv) hlen
          cases hm : manyTillVal pv f i1 with
          | ok i2 vs2 =>
            simp only [hm, PResult.ok.injEq] at h
            obtain ⟨rfl, rfl⟩ := h
            exact lt_trans (ih i1 _ _ hm) hlt
          | err e2 => simp only [hm] at h; exact PResult.noConfusion h
          | fail e2 => simp only [hm] at h; exact PResult.noConfusion h
          | panicked => simp only [hm] at h; exact PResult.noConfusion h
          | outOfFuel => simp only [hm] at h; exact PResult.noConfusion h
      | err e2 => simp only [hv] at h; exact PResult.noConfusion h
      | fail e2 => simp only [hv] at h; exact PResult.noConfusion h
      | panicked => simp only [hv] at h; exact PResult.noConfusion h
      | outOfFuel => simp only [hv] at h; exact PResult.noConfusion h

theorem manyTillKV_consumes {pv : List Nat → PResult Value}
    (hpc : ∀ j r v, pv j = .ok r v → r.length ≤ j.length) :
    ∀ fuel i r kvs, manyTillKV pv fuel i = .ok r kvs → r.length < i.length := by
  intro fuel
  induction fuel with
  | zero => intro i r kvs h; exact PResult.noConfusion h
  | succ f ih =>
    intro i r kvs h
    unfold manyTillKV at h
    cases hc : pChar 101 i with
    | ok p =>
      obtain ⟨i1, x⟩ := p
      simp only [hc] at h
      obtain ⟨rfl, rfl⟩ := pChar_ok_inv hc
      simp only [PResult.ok.injEq] at h
      obtain ⟨rfl, rfl⟩ := h
      simp
    | error e =>
      simp only [hc] at h
      cases hb : parse_bytes i with
      | ok i1 k =>
        simp only [hb] at h
        cases hv : pv i1 with
        | ok i2 v =>
          simp only [hv] at h
          by_cases hlen : i2.length = i.length
          · rw [if_pos hlen] at h; exact PResult.noConfusion h
          · rw [if_neg hlen] at h
            have hlt : i2.length < i.length :=
              lt_of_le_of_ne
                (le_trans (hpc _ _ _ hv) (le_of_lt (parse_bytes_consumes hb)))
                hlen
            cases hm : manyTillKV pv f i2 with
            | ok i3 kvs2 =>
              simp only [hm, PResult.ok.injEq] at h
              obtain ⟨rfl, rfl⟩ := h
              exact lt_trans (ih i2 _ _ hm) hlt
            | err e2 => simp only [hm] at h; exact PResult.noConfusion h
            | fail e2 => simp only [hm] at h; exact PResult.noConfusion h
            | panicked => simp only [hm] at h; exact PResult.noConfusion h
            | outOfFuel => simp only [hm] at h; exact PResult.noConfusion h
        | err e2 => simp only [hv] at h; exact PResult.noConfusion h
        | fail e2 => simp only [hv] at h; exact PResult.noConfusion h
        | panicked => simp only [hv] at h; exact PResult.noConfusion h
        | outOfFuel => simp only [hv] at h; exact PResult.noConfusion h
      | err e2 => simp only [hb] at h; exact PResult.noConfusion h
      | fail e2 => simp only [hb] at h; exact PResult.noConfusion h
      | panicked => simp only [hb] at h; exact PResult.noConfusion h
      | outOfFuel => simp only [hb] at h; exact PResult.noConfusion h

theorem parse_listF_consumes {pv : List Nat → PResult Value} {fuel : Nat}
    {input r : List Nat} {v : Value}
    (hpc : ∀ j r v, pv j = .ok r v → r.length ≤ j.length)
    (h : parse_listF pv fuel input = .ok r v) : r.length < input.length := by
  unfold parse_listF at h
  cases hc : pChar 108 input with
  | error e => simp only [hc] at h; exact PResult.noConfusion h
  | ok p =>
    obtain ⟨i1, x⟩ := p
    simp only [hc] at h
    obtain ⟨rfl, rfl⟩ := pChar_ok_inv hc
    cases hm : manyTillVal pv fuel i1 with
    | ok i2 vs =>
      simp only [hm, PResult.ok.injEq] at h
      obtain ⟨rfl, rfl⟩ := h
      exact lt_trans (manyTillVal_consumes hpc fuel i1 _ _ hm) (by simp)
    | err e => simp only [hm] at h; exact PResult.noConfusion h
    | fail e => simp only [hm] at h; exact PResult.noConfusion h
    | panicked => simp only [hm] at h; exact PResult.noConfusion h
    | outOfFuel => simp only [hm] at h; exact PResult.noConfusion h

theorem parse_dictF_consumes {pv : List Nat → PResult Value} {fuel : Nat}
    {input r : List Nat} {v : Value}
    (hpc : ∀ j r v, pv j = .ok r v → r.length ≤ j.length)
    (h : parse_dictF pv fuel input = .ok r v) : r.length < input.length := by
  unfold parse_dictF at h
  cases hc : pChar 100 input with
  | error e => simp only [hc] at h; exact PResult.noConfusion h
  | ok p =>
    obtain ⟨i1, x⟩ := p
    simp only [hc] at h
    obtain ⟨rfl, rfl⟩ := pChar_ok_inv hc
    cases hm : manyTillKV pv fuel i1 with
    | ok i2 kvs =>
      simp only [hm] at h
      cases hp : toPairs kvs with
      | none => simp only [hp] at h; exact PResult.noConfusion h
      | some ps =>
        simp only [hp, PResult.ok.injEq] at h
        obtain ⟨rfl, rfl⟩ := h
        exact lt_trans (manyTillKV_consumes hpc fuel i1 _ _ hm) (by simp)
    | err e => simp only [hm] at h; exact PResult.noConfusion h
    | fail e => simp only [hm] at h; exact PResult.noConfusion h
    | panicked => simp only [hm] at h; exact PResult.noConfusion h
    | outOfFuel => simp only [hm] at h; exact PResult.noConfusion h

/-- Every successful dispatcher step consumes at least one byte. -/
theorem parse_value_consumes :
    ∀ fuel (input r : List Nat) (v : Value),
      parse_value fuel input = .ok r v → r.length < input.length := by
  intro fuel
  induction fuel with
  | zero => intro input r v h; exact PResult.noConfusion h
  | succ f ih =>
    intro input r v h
    have hpc : ∀ j r v, parse_value f j = .ok r v → r.length ≤ j.length :=
      fun j r v hj => le_of_lt (ih j r v hj)
    unfold parse_value at h
    rcases altOr_ok h with h1 | h
    · exact parse_bytes_consumes h1
    rcases altOr_ok h with h2 | h
    · exact parse_integer_consumes h2
    rcases altOr_ok h with h3 | h4
    · exact parse_listF_consumes hpc h3
    · exact parse_dictF_consumes hpc h4

/-! ### Fuel adequacy: the embedding never runs out of fuel when
`fuel > input.length`, which is the termination argument for the
mutually recursive Rust parsers. -/

theorem manyTillVal_adequate {pv : List Nat → PResult Value} :
    ∀ fuel (i : List Nat), i.length < fuel →
      (∀ j : List Nat, j.length ≤ i.length → pv j ≠ .outOfFuel) →
      (∀ j r v, pv j = .ok r v → r.length ≤ j.length) →
      manyTillVal pv fuel i ≠ .outOfFuel := by
  intro fuel
  induction fuel with
  | zero => intro i hf; omega
  | succ f ih =>
    intro i hf hpv hpc h
    unfold manyTillVal at h
    cases hc : pChar 101 i with
    | ok p =>
      obtain ⟨i1, x⟩ := p
      simp only [hc] at h
      exact PResult.noConfusion h
    | error e =>
      simp only [hc] at h
      cases hv : pv i with
      | ok i1 v =>
        simp only [hv] at h
        by_cases hlen : i1.length = i.length
        · rw [if_pos hlen] at h; exact PResult.noConfusion h
        · rw [if_neg hlen] at h
          have hlt : i1.length < i.length :=
            lt_of_le_of_ne (hpc _ _ _ hv) hlen
          have hrec : manyTillVal pv f i1 ≠ .outOfFuel :=
            ih i1 (by omega) (fun j hj => hpv j (by omega)) hpc
          cases hm : manyTillVal pv f i1 with
          | ok i2 vs => simp only [hm] at h; exact PResult.noConfusion h
          | err e2 => simp only [hm] at h; exact PResult.noConfusion h
          | fail e2 => simp only [hm] at h; exact PResult.noConfusion h
          | panicked => simp only [hm] at h; exact PResult.noConfusion h
          | outOfFuel => exact hrec hm
      | err e2 => simp only [hv] at h; exact PResult.noConfusion h
      | fail e2 => simp only [hv] at h; exact PResult.noConfusion h
      | panicked => simp only [hv] at h; exact PResult.noConfusion h
      | outOfFuel => exact hpv i (le_refl _) hv

theorem manyTillKV_adequate {pv : List Nat → PResult Value} :
    ∀ fuel (i : List Nat), i.length < fuel →
      (∀ j : List Nat, j.length ≤ i.length → pv j ≠ .outOfFuel) →
      (∀ j r v, pv j = .ok r v → r.length ≤ j.length) →
      manyTillKV pv fuel i ≠ .outOfFuel := by
  intro fuel
  induction fuel with
  | zero => intro i hf; omega
  | succ f ih =>
    intro i hf hpv hpc h
    unfold manyTillKV at h
    cases hc : pChar 101 i with
    | ok p =>
      obtain ⟨i1, x⟩ := p
      simp only [hc] at h
      exact PResult.noConfusion h
    | error e =>
      simp only [hc] at h
      cases hb : parse_bytes i with
      | ok i1 k =>
        simp only [hb] at h
        have hb1 : i1.length < i.length := parse_bytes_consumes hb
        cases hv : pv i1 with
        | ok i2 v =>
          simp only [hv] at h
          by_cases hlen : i2.length = i.length
          · rw [if_pos hlen] at h; exact PResult.noConfusion h
          · rw [if_neg hlen] at h
            have hlt : i2.length < i.length :=
              lt_of_le_of_ne (le_trans (hpc _ _ _ hv) (le_of_lt hb1)) hlen
            have hrec : manyTillKV pv f i2 ≠ .outOfFuel :=
              ih i2 (by omega) (fun j hj => hpv j (by omega)) hpc
            cases hm : manyTillKV pv f i2 with
            | ok i3 kvs => simp only [hm] at h; exact PResult.noConfusion h
            | err e2 => simp only [hm] at h; exact PResult.noConfusion h
            | fail e2 => simp only [hm] at h; exact PResult.noConfusion h
            | panicked => simp only [hm] at h; exact PResult.noConfusion h
            | outOfFuel => exact hrec hm
        | err e2 => simp only [hv] at h; exact PResult.noConfusion h
        | fail e2 => simp only [hv] at h; exact PResult.noConfusion h
        | panicked => simp only [hv] at h; exact PResult.noConfusion h
        | outOfFuel => exact hpv i1 (le_of_lt hb1) hv
      | err e2 => simp only [hb] at h; exact PResult.noConfusion h
      | fail e2 => simp only [hb] at h; exact PResult.noConfusion h
      | panicked => simp only [hb] at h; exact PResult.noConfusion h
      | outOfFuel => exact (parse_bytes_outcomes i).2 hb

theorem parse_listF_adequate {pv : List Nat → PResult Value} {fuel : Nat}
    {input : List Nat} (hf : input.length ≤ fuel)
    (hpv : ∀ j : List Nat, j.length < input.length → pv j ≠ .outOfFuel)
    (hpc : ∀ j r v, pv j = .ok r v → r.length ≤ j.length) :
    parse_listF pv fuel input ≠ .outOfFuel := by
  intro h
  unfold parse_listF at h
  cases hc : pChar 108 input with
  | error e => simp only [hc] at h; exact PResult.noConfusion h
  | ok p =>
    obtain ⟨i1, x⟩ := p
    simp only [hc] at h
    obtain ⟨rfl, rfl⟩ := pChar_ok_inv hc
    have hi1 : i1.length < (108 :: i1).length := by simp
    have hm : manyTillVal pv fuel i1 ≠ .outOfFuel :=
      manyTillVal_adequate fuel i1 (by simp at hf ⊢; omega)
        (fun j hj => hpv j (by simp; omega)) hpc
    cases hmm : manyTillVal pv fuel i1 with
    | ok i2 vs => simp only [hmm] at h; exact PResult.noConfusion h
    | err e => simp only [hmm] at h; exact PResult.noConfusion h
    | fail e => simp only [hmm] at h; exact PResult.noConfusion h
    | panicked => simp only [hmm] at h; exact PResult.noConfusion h
    | outOfFuel => exact hm hmm

theorem parse_dictF_adequate {pv : List Nat → PResult Value} {fuel : Nat}
    {input : List Nat} (hf : input.length ≤ fuel)
    (hpv : ∀ j : List Nat, j.length < input.length → pv j ≠ .outOfFuel)
    (hpc : ∀ j r v, pv j = .ok r v → r.length ≤ j.length) :
    parse_dictF pv fuel input ≠ .outOfFuel := by
  intro h
  unfold parse_dictF at h
  cases hc : pChar 100 input with
  | error e => simp only [hc] at h; exact PResult.noConfusion h
  | ok p =>
    obtain ⟨i1, x⟩ := p
    simp only [hc] at h
    obtain ⟨rfl, rfl⟩ := pChar_ok_inv hc
    have hm : manyTillKV pv fuel i1 ≠ .outOfFuel :=
      manyTillKV_adequate fuel i1 (by simp at hf ⊢; omega)
        (fun j hj => hpv j (by simp; omega)) hpc
    cases hmm : manyTillKV pv fuel i1 with
    | ok i2 kvs =>
      simp only [hmm] at h
      cases hp : toPairs kvs with
      | none => simp only [hp] at h; exact PResult.noConfusion h
      | some ps => simp only [hp] at h; exact PResult.noConfusion h
    | err e => simp only [hmm] at h; exact PResult.noConfusion h
    | fail e => simp only [hmm] at h; exact PResult.noConfusion h
    | panicked => simp only [hmm] at h; exact PResult.noConfusion h
    | outOfFuel => exact hm hmm

theorem parse_value_adequate :
    ∀ fuel (input : List Nat), input.length < fuel →
      parse_value fuel input ≠ .outOfFuel := by
  intro fuel
  induction fuel with
  | zero => intro input hf; omega
  | succ f ih =>
    intro input hf h
    have hpc : ∀ j r v, parse_value f j = .ok r v → r.length ≤ j.length :=
      fun j r v hj => le_of_lt (parse_value_consumes f j r v hj)
    unfold parse_value at h
    rcases altOr_outOfFuel h with h1 | h
    · exact (parse_bytes_outcomes input).2 h1
    rcases altOr_outOfFuel h with h2 | h
    · exact (parse_integer_outcomes input).2 h2
    rcases altOr_outOfFuel h with h3 | h4
    · exact parse_listF_adequate (by omega)
        (fun j hj => ih j (by omega)) hpc h3
    · exact parse_dictF_adequate (by omega)
        (fun j hj => ih j (by omega)) hpc h4

theorem many0Val_adequate {pv : List Nat → PResult Value} :
    ∀ fuel (i : List Nat), i.length < fuel →
      (∀ j : List Nat, j.length ≤ i.length → pv j ≠ .outOfFuel) →
      (∀ j r v, pv j = .ok r v → r.length ≤ j.length) →
      many0Val pv fuel i ≠ .outOfFuel := by
  intro fuel
  induction fuel with
  | zero => intro i hf; omega
  | succ f ih =>
    intro i hf hpv hpc h
    unfold many0Val at h
    cases hv : pv i with
    | ok i1 v =>
      simp only [hv] at h
      by_cases hlen : i1.length = i.length
      · rw [if_pos hlen] at h; exact PResult.noConfusion h
      · rw [if_neg hlen] at h
        have hlt : i1.length < i.length := lt_of_le_of_ne (hpc _ _ _ hv) hlen
        have hrec : many0Val pv f i1 ≠ .outOfFuel :=
          ih i1 (by omega) (fun j hj => hpv j (by omega)) hpc
        cases hm : many0Val pv f i1 with
        | ok i2 vs => simp only [hm] at h; exact PResult.noConfusion h
        | err e2 => simp only [hm] at h; exact PResult.noConfusion h
        | fail e2 => simp only [hm] at h; exact PResult.noConfusion h
        | panicked => simp only [hm] at h; exact PResult.noConfusion h
        | outOfFuel => exact hrec hm
    | err e2 => simp only [hv] at h; exact PResult.noConfusion h
    | fail e2 => simp only [hv] at h; exact PResult.noConfusion h
    | panicked => simp only [hv] at h; exact PResult.noConfusion h
    | outOfFuel => exact hpv i (le_refl _) hv

theorem parseTop_adequate {fuel : Nat} {input : List Nat}
    (hf : input.length < fuel) : parseTop fuel input ≠ .outOfFuel := by
  intro h
  unfold parseTop at h
  have hm : many0Val (parse_value fuel) fuel input ≠ .outOfFuel :=
    many0Val_adequate fuel input hf
      (fun j hj => parse_value_adequate fuel j (by omega))
      (fun j r v hj => le_of_lt (parse_value_consumes fuel j r v hj))
  cases hmm : many0Val (parse_value fuel) fuel input with
  | ok next vs =>
    simp only [hmm] at h
    cases he : pEof next with
    | error e => simp only [he] at h; exact PResult.noConfusion h
    | ok q => simp only [he] at h; exact PResult.noConfusion h
  | err e => simp only [hmm] at h; exact PResult.noConfusion h
  | fail e => simp only [hmm] at h; exact PResult.noConfusion h
  | panicked => simp only [hmm] at h; exact PResult.noConfusion h
  | outOfFuel => exact hm hmm

/-- C9: with fuel exceeding the buffer length, every entry point of
the embedding returns a real outcome (never `outOfFuel`): the nom
loops and the mutual recursion are well-founded because every
successful inner parse consumes at least one byte, which the last
conjunct states for the dispatcher. -/
theorem c9_termination (fuel : Nat) (input : List Nat)
    (hf : input.length < fuel) :
    parse_value fuel input ≠ .outOfFuel ∧
    parse_list fuel input ≠ .outOfFuel ∧
    parse_dict fuel input ≠ .outOfFuel ∧
    parseTop fuel input ≠ .outOfFuel ∧
    (∀ r v, parse_value fuel input = .ok r v → r.length < input.length) := by
  have hpc : ∀ j r v, parse_value fuel j = .ok r v → r.length ≤ j.length :=
    fun j r v hj => le_of_lt (parse_value_consumes fuel j r v hj)
  refine ⟨parse_value_adequate fuel input hf, ?_, ?_, parseTop_adequate hf, ?_⟩
  · exact parse_listF_adequate (by omega)
      (fun j hj => parse_value_adequate fuel j (by omega)) hpc
  · exact parse_dictF_adequate (by omega)
      (fun j hj => parse_value_adequate fuel j (by omega)) hpc
  · exact fun r v h => parse_value_consumes fuel input r v h

/-- Witness for C9 at the concrete input `i5e` with fuel 4. -/
theorem c9_witness :
    parse_value 4 (str2b "i5e") ≠ .outOfFuel ∧
    parse_list 4 (str2b "i5e") ≠ .outOfFuel ∧
    parse_dict 4 (str2b "i5e") ≠ .outOfFuel ∧
    parseTop 4 (str2b "i5e") ≠ .outOfFuel ∧
    (∀ r v, parse_value 4 (str2b "i5e") = .ok r v →
      r.length < (str2b "i5e").length) :=
  c9_termination 4 (str2b "i5e") (by decide)

/-! ### C10: absence of panics -/

theorem manyTillVal_no_panic {pv : List Nat → PResult Value}
    (hpv : ∀ j : List Nat, pv j ≠ .panicked) :
    ∀ fuel (i : List Nat), manyTillVal pv fuel i ≠ .panicked := by
  intro fuel
  induction fuel with
  | zero => intro i h; exact PResult.noConfusion h
  | succ f ih =>
    intro i h
    unfold manyTillVal at h
    cases hc : pChar 101 i with
    | ok p =>
      obtain ⟨i1, x⟩ := p
      simp only [hc] at h
      exact PResult.noConfusion h
    | error e =>
      simp only [hc] at h
      cases hv : pv i with
      | ok i1 v =>
        simp only [hv] at h
        by_cases hlen : i1.length = i.length
        · rw [if_pos hlen] at h; exact PResult.noConfusion h
        · rw [if_neg hlen] at h
          cases hm : manyTillVal pv f i1 with
          | ok i2 vs => simp only [hm] at h; exact PResult.noConfusion h
          | err e2 => simp only [hm] at h; exact PResult.noConfusion h
          | fail e2 => simp only [hm] at h; exact PResult.noConfusion h
          | panicked => exact ih i1 hm
          | outOfFuel => simp only [hm] at h; exact PResult.noConfusion h
      | err e2 => simp only [hv] at h; exact PResult.noConfusion h
      | fail e2 => simp only [hv] at h; exact PResult.noConfusion h
      | panicked => exact hpv i hv
      | outOfFuel => simp only [hv] at h; exact PResult.noConfusion h

theorem manyTillKV_no_panic {pv : List Nat → PResult Value}
    (hpv : ∀ j : List Nat, pv j ≠ .panicked) :
    ∀ fuel (i : List Nat), manyTillKV pv fuel i ≠ .panicked := by
  intro fuel
  induction fuel with
  | zero => intro i h; exact PResult.noConfusion h
  | succ f ih =>
    intro i h
    unfold manyTillKV at h
    cases hc : pChar 101 i with
    | ok p =>
      obtain ⟨i1, x⟩ := p
      simp only [hc] at h
      exact PResult.noConfusion h
    | error e =>
      simp only [hc] at h
      cases hb : parse_bytes i with
      | ok i1 k =>
        simp only [hb] at h
        cases hv : pv i1 with
        | ok i2 v =>
          simp only [hv] at h
          by_cases hlen : i2.length = i.length
          · rw [if_pos hlen] at h; exact PResult.noConfusion h
          · rw [if_neg hlen] at h
            cases hm : manyTillKV pv f i2 with
            | ok i3 kvs => simp only [hm] at h; exact PResult.noConfusion h
            | err e2 => simp only [hm] at h; exact PResult.noConfusion h
            | fail e2 => simp only [hm] at h; exact PResult.noConfusion h
            | panicked => exact ih i2 hm
            | outOfFuel => simp only [hm] at h; exact PResult.noConfusion h
        | err e2 => simp only [hv] at h; exact PResult.noConfusion h
        | fail e2 => simp only [hv] at h; exact PResult.noConfusion h
        | panicked => exact hpv i1 hv
        | outOfFuel => simp only [hv] at h; exact PResult.noConfusion h
      | err e2 => simp only [hb] at h; exact PResult.noConfusion h
      | fail e2 => simp only [hb] at h; exact PResult.noConfusion h
      | panicked => exact (parse_bytes_outcomes i).1 hb
      | outOfFuel => simp only [hb] at h; exact PResult.noConfusion h

/-- Every key collected by the dictionary loop is the `Bytes` variant,
because the key position is parsed exclusively by `parse_bytes`. -/
theorem manyTillKV_keys_bytes {pv : List Nat → PResult Value} :
    ∀ fuel (i r : List Nat) (kvs : List (Value × Value)),
      manyTillKV pv fuel i = .ok r kvs →
      ∀ p ∈ kvs, ∃ bs, p.1 = .bytes bs := by
  intro fuel
  induction fuel with
  | zero => intro i r kvs h; exact PResult.noConfusion h
  | succ f ih =>
    intro i r kvs h
    unfold manyTillKV at h
    cases hc : pChar 101 i with
    | ok p =>
      obtain ⟨i1, x⟩ := p
      simp only [hc] at h
      simp only [PResult.ok.injEq] at h
      obtain ⟨rfl, rfl⟩ := h
      intro p hp
      exact absurd hp (List.not_mem_nil p)
    | error e =>
      simp only [hc] at h
      cases hb : parse_bytes i with
      | ok i1 k =>
        simp only [hb] at h
        cases hv : pv i1 with
        | ok i2 v =>
          simp only [hv] at h
          by_cases hlen : i2.length = i.length
          · rw [if_pos hlen] at h; exact PResult.noConfusion h
          · rw [if_neg hlen] at h
            cases hm : manyTillKV pv f i2 with
            | ok i3 kvs2 =>
              simp only [hm, PResult.ok.injEq] at h
              obtain ⟨rfl, rfl⟩ := h
              intro p hp
              rcases List.mem_cons.mp hp with rfl | hp2
              · exact parse_bytes_ok_bytes hb
              · exact ih i2 _ _ hm p hp2
            | err e2 => simp only [hm] at h; exact PResult.noConfusion h
            | fail e2 => simp only [hm] at h; exact PResult.noConfusion h
            | panicked => simp only [hm] at h; exact PResult.noConfusion h
            | outOfFuel => simp only [hm] at h; exact PResult.noConfusion h
        | err e2 => simp only [hv] at h; exact PResult.noConfusion h
        | fail e2 => simp only [hv] at h; exact PResult.noConfusion h
        | panicked => simp only [hv] at h; exact PResult.noConfusion h
        | outOfFuel => simp only [hv] at h; exact PResult.noConfusion h
      | err e2 => simp only [hb] at h; exact PResult.noConfusion h
      | fail e2 => simp only [hb] at h; exact PResult.noConfusion h
      | panicked => simp only [hb] at h; exact PResult.noConfusion h
      | outOfFuel => simp only [hb] at h; exact PResult.noConfusion h

/-- If every collected key is a `Bytes` value, the `unreachable!()`
branch of the key-extraction map is never taken. -/
theorem toPairs_some :
    ∀ kvs : List (Value × Value),
      (∀ p ∈ kvs, ∃ bs, p.1 = .bytes bs) → ∃ ps, toPairs kvs = some ps := by
  intro kvs
  induction kvs with
  | nil => intro _; exact ⟨[], rfl⟩
  | cons kv rest ih =>
    intro hk
    obtain ⟨k, v⟩ := kv
    obtain ⟨bs, hbs⟩ := hk (k, v) (List.mem_cons_self _ _)
    simp only at hbs
    subst hbs
    obtain ⟨ps, hps⟩ := ih (fun p hp => hk p (List.mem_cons_of_mem _ hp))
    exact ⟨(bs, v) :: ps, by simp [toPairs, hps]⟩

theorem parse_listF_no_panic {pv : List Nat → PResult Value} {fuel : Nat}
    {input : List Nat} (hpv : ∀ j : List Nat, pv j ≠ .panicked) :
    parse_listF pv fuel input ≠ .panicked := by
  intro h
  unfold parse_listF at h
  cases hc : pChar 108 input with
  | error e => simp only [hc] at h; exact PResult.noConfusion h
  | ok p =>
    obtain ⟨i1, x⟩ := p
    simp only [hc] at h
    cases hm : manyTillVal pv fuel i1 with
    | ok i2 vs => simp only [hm] at h; exact PResult.noConfusion h
    | err e => simp only [hm] at h; exact PResult.noConfusion h
    | fail e => simp only [hm] at h; exact PResult.noConfusion h
    | panicked => exact manyTillVal_no_panic hpv fuel i1 hm
    | outOfFuel => simp only [hm] at h; exact PResult.noConfusion h

theorem parse_dictF_no_panic {pv : List Nat → PResult Value} {fuel : Nat}
    {input : List Nat} (hpv : ∀ j : List Nat, pv j ≠ .panicked) :
    parse_dictF pv fuel input ≠ .panicked := by
  intro h
  unfold parse_dictF at h
  cases hc : pChar 100 input with
  | error e => simp only [hc] at h; exact PResult.noConfusion h
  | ok p =>
    obtain ⟨i1, x⟩ := p
    simp only [hc] at h
    cases hm : manyTillKV pv fuel i1 with
    | ok i2 kvs =>
      simp only [hm] at h
      obtain ⟨ps, hps⟩ := toPairs_some kvs (manyTillKV_keys_bytes fuel i1 _ _ hm)
      simp only [hps] at h
      exact PResult.noConfusion h
    | err e => simp only [hm] at h; exact PResult.noConfusion h
    | fail e => simp only [hm] at h; exact PResult.noConfusion h
    | panicked => exact manyTillKV_no_panic hpv fuel i1 hm
    | outOfFuel => simp only [hm] at h; exact PResult.noConfusion h

theorem parse_value_no_panic :
    ∀ fuel (input : List Nat), parse_value fuel input ≠ .panicked := by
  intro fuel
  induction fuel with
  | zero => intro input h; exact PResult.noConfusion h
  | succ f ih =>
    intro input h
    unfold parse_value at h
    rcases altOr_panicked h with h1 | h
    · exact (parse_bytes_outcomes input).1 h1
    rcases altOr_panicked h with h2 | h
    · exact (parse_integer_outcomes input).1 h2
    rcases altOr_panicked h with h3 | h4
    · exact parse_listF_no_panic (fun j => ih j) h3
    · exact parse_dictF_no_panic (fun j => ih j) h4

theorem many0Val_no_panic {pv : List Nat → PResult Value}
    (hpv : ∀ j : List Nat, pv j ≠ .panicked) :
    ∀ fuel (i : List Nat), many0Val pv fuel i ≠ .panicked := by
  intro fuel
  induction fuel with
  | zero => intro i h; exact PResult.noConfusion h
  | succ f ih =>
    intro i h
    unfold many0Val at h
    cases hv : pv i with
    | ok i1 v =>
      simp only [hv] at h
      by_cases hlen : i1.length = i.length
      · rw [if_pos hlen] at h; exact PResult.noConfusion h
      · rw [if_neg hlen] at h
        cases hm : many0Val pv f i1 with
        | ok i2 vs => simp only [hm] at h; exact PResult.noConfusion h
        | err e2 => simp only [hm] at h; exact PResult.noConfusion h
        | fail e2 => simp only [hm] at h; exact PResult.noConfusion h
        | panicked => exact ih i1 hm
        | outOfFuel => simp only [hm] at h; exact PResult.noConfusion h
    | err e2 => simp only [hv] at h; exact PResult.noConfusion h
    | fail e2 => simp only [hv] at h; exact PResult.noConfusion h
    | panicked => exact hpv i hv
    | outOfFuel => simp only [hv] at h; exact PResult.noConfusion h

theorem parseTop_no_panic {fuel : Nat} {input : List Nat} :
    parseTop fuel input ≠ .panicked := by
  intro h
  unfold parseTop at h
  cases hm : many0Val (parse_value fuel) fuel input with
  | ok next vs =>
    simp only [hm] at h
    cases he : pEof next with
    | error e => simp only [he] at h; exact PResult.noConfusion h
    | ok q => simp only [he] at h; exact PResult.noConfusion h
  | err e => simp only [hm] at h; exact PResult.noConfusion h
  | fail e => simp only [hm] at h; exact PResult.noConfusion h
  | panicked => exact many0Val_no_panic (parse_value_no_panic fuel) fuel input hm
  | outOfFuel => simp only [hm] at h; exact PResult.noConfusion h

/-- C10: no input ever reaches a panic: the `from_utf8 … expect`
calls only ever see ASCII sign and digit bytes, and the
`unreachable!()` in `parse_dict` is protected by the key position
being parsed exclusively by `parse_bytes`, which only returns the
`Bytes` variant. -/
theorem c10_no_panic (fuel : Nat) (input : List Nat) :
    parse_integer input ≠ .panicked ∧
    parse_bytes input ≠ .panicked ∧
    parse_value fuel input ≠ .panicked ∧
    parse_list fuel input ≠ .panicked ∧
    parse_dict fuel input ≠ .panicked ∧
    parseTop fuel input ≠ .panicked :=
  ⟨(parse_integer_outcomes input).1, (parse_bytes_outcomes input).1,
    parse_value_no_panic fuel input,
    parse_listF_no_panic (parse_value_no_panic fuel),
    parse_dictF_no_panic (parse_value_no_panic fuel),
    parseTop_no_panic⟩

/-! ### Decimal printing of a `Nat`, for building encodings (C7) -/

/-- Little-endian decimal digits of `n` (as ASCII bytes), with a fuel
bound to keep the recursion structural. -/
def digitsRevAux : Nat → Nat → List Nat
  | 0, _ => []
  | fuel + 1, n => if n = 0 then [] else (n % 10 + 48) :: digitsRevAux fuel (n / 10)

/-- Canonical big-endian ASCII decimal representation of `n`. -/
def natDigits (n : Nat) : List Nat :=
  if n = 0 then [48] else (digitsRevAux n n).reverse

theorem digitsRevAux_all :
    ∀ fuel n, (digitsRevAux fuel n).all isDigitB = true := by
  intro fuel
  induction fuel with
  | zero => intro n; rfl
  | succ f ih =>
    intro n
    by_cases h0 : n = 0
    · simp [digitsRevAux, h0]
    · have hm : n % 10 < 10 := Nat.mod_lt _ (by omega)
      simp [digitsRevAux, h0, ih (n / 10), isDigitB]
      omega

theorem digitsVal_append_one (xs : List Nat) (d : Nat) :
    digitsVal (xs ++ [d]) = 10 * digitsVal xs + (d - 48) := by
  simp [digitsVal, List.foldl_append]

theorem digitsRevAux_val :
    ∀ fuel n, n ≤ fuel → digitsVal (digitsRevAux fuel n).reverse = n := by
  intro fuel
  induction fuel with
  | zero =>
    intro n h
    have : n = 0 := by omega
    subst this
    rfl
  | succ f ih =>
    intro n h
    by_cases h0 : n = 0
    · subst h0; rfl
    · have hd : n / 10 < n := Nat.div_lt_self (by omega) (by omega)
      have := ih (n / 10) (by omega)
      simp only [digitsRevAux, h0, if_false, List.reverse_cons]
      rw [digitsVal_append_one, this]
      have := Nat.div_add_mod n 10
      omega

theorem digitsRevAux_zero : ∀ fuel, digitsRevAux fuel 0 = [] := by
  intro fuel
  cases fuel <;> rfl

theorem digitsRevAux_last :
    ∀ fuel n, 0 < n → n ≤ fuel →
      ∃ ds d, digitsRevAux fuel n = ds ++ [d] ∧ d ≠ 48 ∧ isDigitB d = true := by
  intro fuel
  induction fuel with
  | zero => intro n h hf; omega
  | succ f ih =>
    intro n h hf
    have h0 : n ≠ 0 := by omega
    by_cases hq : n / 10 = 0
    · refine ⟨[], n % 10 + 48, ?_, ?_, ?_⟩
      · simp [digitsRevAux, h0, hq, digitsRevAux_zero]
      · have : n % 10 = n := by omega
        omega
      · have hm : n % 10 < 10 := Nat.mod_lt _ (by omega)
        simp [isDigitB]
        omega
    · have hd : n / 10 < n := Nat.div_lt_self (by omega) (by omega)
      obtain ⟨ds, d, heq, hne, hdig⟩ := ih (n / 10) (by omega) (by omega)
      exact ⟨(n % 10 + 48) :: ds, d, by simp [digitsRevAux, h0, heq], hne, hdig⟩

theorem natDigits_ne_nil (n : Nat) : natDigits n ≠ [] := by
  by_cases h0 : n = 0
  · simp [natDigits, h0]
  · have ⟨ds, d, heq, _, _⟩ := digitsRevAux_last n n (by omega) (le_refl n)
    simp [natDigits, h0, heq]

theorem natDigits_all (n : Nat) : (natDigits n).all isDigitB = true := by
  by_cases h0 : n = 0
  · simp [natDigits, h0, isDigitB]
  · simp only [natDigits, h0, if_false]
    rw [List.all_reverse]
    exact digitsRevAux_all n n

theorem natDigits_val (n : Nat) : digitsVal (natDigits n) = n := by
  by_cases h0 : n = 0
  · simp [natDigits, h0, digitsVal]
  · simp only [natDigits, h0, if_false]
    exact digitsRevAux_val n n (le_refl n)

theorem natDigits_head_48 {n : Nat} (h : (natDigits n).head? = some 48) :
    n = 0 := by
  by_contra h0
  obtain ⟨ds, d, heq, hne, hdig⟩ := digitsRevAux_last n n (by omega) (le_refl n)
  rw [natDigits, if_neg h0, heq] at h
  simp only [List.reverse_append, List.reverse_singleton, List.singleton_append,
    List.head?_cons, Option.some.injEq] at h
  exact hne h

theorem natDigits_zero : natDigits 0 = [48] := rfl

/-! ### Well-formed encodings (C7): a syntax of Bencode documents, an
encoder producing the canonical byte form, and its denotation as the
decoded `Value`.  `Pairs` keeps every key occurrence, so duplicate
keys can be expressed; the decoder's last-write-wins `HashMap`
behaviour is captured by `hmCollect` over the pair list in input
order. -/

mutual
inductive Doc where
  | int : Int → Doc
  | bstr : List Nat → Doc
  | list : Docs → Doc
  | dict : Pairs → Doc
inductive Docs where
  | nil : Docs
  | cons : Doc → Docs → Docs
inductive Pairs where
  | nil : Pairs
  | cons : List Nat → Doc → Pairs → Pairs
end

mutual
/-- Well-formedness of a document: integers fit `i64`, byte strings
are nonempty with a `u64`-sized length, keys likewise. -/
def docWF : Doc → Bool
  | .int n => decide (-(2 ^ 63) ≤ n) && decide (n ≤ 2 ^ 63 - 1)
  | .bstr bs => !bs.isEmpty && decide (bs.length < 2 ^ 64)
  | .list ds => docsWF ds
  | .dict ps => pairsWF ps
def docsWF : Docs → Bool
  | .nil => true
  | .cons d ds => docWF d && docsWF ds
def pairsWF : Pairs → Bool
  | .nil => true
  | .cons k d ps => (!k.isEmpty && decide (k.length < 2 ^ 64)) && docWF d && pairsWF ps
end

/-- Sign part of the canonical encoding of an integer. -/
def intSgn (n : Int) : List Nat := if n < 0 then [45] else []

/-- Digit part of the canonical encoding of an integer. -/
def intDs (n : Int) : List Nat := natDigits n.natAbs

mutual
/-- Canonical Bencode encoding of a document. -/
def encodeDoc : Doc → List Nat
  | .int n => 105 :: (intSgn n ++ (intDs n ++ [101]))
  | .bstr bs => natDigits bs.length ++ 58 :: bs
  | .list ds => 108 :: (encodeDocs ds ++ [101])
  | .dict ps => 100 :: (encodePairs ps ++ [101])
def encodeDocs : Docs → List Nat
  | .nil => []
  | .cons d ds => encodeDoc d ++ encodeDocs ds
def encodePairs : Pairs → List Nat
  | .nil => []
  | .cons k d ps => (natDigits k.length ++ 58 :: k) ++ (encodeDoc d ++ encodePairs ps)
end

mutual
/-- The `Value` a document decodes to. -/
def decodeDoc : Doc → Value
  | .int n => .integer n
  | .bstr bs => .bytes bs
  | .list ds => .list (decodeDocs ds)
  | .dict ps => .dictionary (hmCollect (decodePairs ps))
def decodeDocs : Docs → List Value
  | .nil => []
  | .cons d ds => decodeDoc d :: decodeDocs ds
def decodePairs : Pairs → List (List Nat × Value)
  | .nil => []
  | .cons k d ps => (k, decodeDoc d) :: decodePairs ps
end

/-- The raw key/value pairs as the dictionary loop collects them
(keys still wrapped in the `Bytes` variant). -/
def decodePairsKV : Pairs → List (Value × Value)
  | .nil => []
  | .cons k d ps => (.bytes k, decodeDoc d) :: decodePairsKV ps

theorem toPairs_decodePairsKV :
    ∀ ps : Pairs, toPairs (decodePairsKV ps) = some (decodePairs ps)
  | .nil => rfl
  | .cons k d ps => by
    simp [decodePairsKV, toPairs, decodePairs, toPairs_decodePairsKV ps]

theorem encodeDoc_ne_nil (d : Doc) : encodeDoc d ≠ [] := by
  cases d with
  | int n => simp [encodeDoc]
  | bstr bs =>
    simp only [encodeDoc]
    intro h
    exact natDigits_ne_nil bs.length (List.append_eq_nil.mp h).1
  | list ds => simp [encodeDoc]
  | dict ps => simp [encodeDoc]

theorem encodeDoc_head (d : Doc) :
    ∃ b, (encodeDoc d).head? = some b ∧ b ≠ 101 := by
  cases d with
  | int n => exact ⟨105, rfl, by omega⟩
  | bstr bs =>
    obtain ⟨x, t, hx⟩ := List.exists_cons_of_ne_nil (natDigits_ne_nil bs.length)
    have hall := natDigits_all bs.length
    rw [hx] at hall
    simp only [List.all_cons, Bool.and_eq_true] at hall
    have := isDigitB_bounds hall.1
    refine ⟨x, ?_, by omega⟩
    simp [encodeDoc, hx]
  | list ds => exact ⟨108, rfl, by omega⟩
  | dict ps => exact ⟨100, rfl, by omega⟩

theorem pChar_err_of_head {c : Nat} {i : List Nat}
    (h : ∀ b, i.head? = some b → b ≠ c) :
    pChar c i = .error (.nomErr i .char) := by
  cases i with
  | nil => rfl
  | cons b t => simp [pChar, h b rfl]

theorem parse_bytes_err_of_head {input : List Nat}
    (h : ∀ b, input.head? = some b → isDigitB b = false) :
    parse_bytes input = .err (.nomErr input .digit) := by
  simp [parse_bytes, pDigit1_none h]

theorem parse_integer_err_of_head {b : Nat} {t : List Nat} (h : b ≠ 105) :
    parse_integer (b :: t) = .err (.nomErr (b :: t) .char) := by
  simp [parse_integer, pChar, h]

theorem parse_listF_err_of_head {pv : List Nat → PResult Value} {fuel : Nat}
    {b : Nat} {t : List Nat} (h : b ≠ 108) :
    parse_listF pv fuel (b :: t) = .err (.nomErr (b :: t) .char) := by
  simp [parse_listF, pChar, h]

theorem altOr_err_left {α : Type} (e : BErr) (b : PResult α) :
    altOr (.err e) b = b := rfl

theorem altOr_ok_left {α : Type} (r : List Nat) (v : α) (b : PResult α) :
    altOr (.ok r v) b = .ok r v := rfl

theorem head?_append_ne {A X : List Nat} (h : A ≠ []) :
    (A ++ X).head? = A.head? := by
  cases A with
  | nil => exact absurd rfl h
  | cons a t => rfl

theorem intDenoted_intSgn (n : Int) :
    intDenoted (intSgn n) (intDs n) = n := by
  by_cases hn : n < 0
  · simp only [intSgn, intDs, if_pos hn, intDenoted, if_pos rfl, natDigits_val]
    rw [Int.ofNat_natAbs_of_nonpos (le_of_lt hn), neg_neg]
    simp
  · simp only [intSgn, intDs, if_neg hn, intDenoted]
    rw [if_neg (by simp), natDigits_val]
    exact Int.natAbs_of_nonneg (by omega)

theorem parse_integer_encode {n : Int} (hlo : -(2 ^ 63) ≤ n)
    (hhi : n ≤ 2 ^ 63 - 1) (rest : List Nat) :
    parse_integer (105 :: (intSgn n ++ (intDs n ++ 101 :: rest))) =
      .ok rest (.integer n) := by
  have hsgn : intSgn n = [] ∨ intSgn n = [43] ∨ intSgn n = [45] := by
    unfold intSgn
    by_cases hn : n < 0
    · simp [hn]
    · simp [hn]
  have hne : intDs n ≠ [] := natDigits_ne_nil _
  have hall : (intDs n).all isDigitB = true := natDigits_all _
  rw [parse_integer_of_run hsgn hne hall]
  have hcheck : ¬((intSgn n = [45] ∧ (intDs n).head? = some 48) ∨
      (intSgn n = [] ∧ (intDs n).head? = some 48 ∧ 1 < (intDs n).length)) := by
    rintro (⟨hs, h48⟩ | ⟨hs, h48, hlen⟩)
    · have h0 := natDigits_head_48 h48
      unfold intSgn at hs
      by_cases hn : n < 0
      · omega
      · simp [hn] at hs
    · have h0 := natDigits_head_48 h48
      unfold intDs at hlen
      rw [h0, natDigits_zero] at hlen
      simp at hlen
  rw [if_neg hcheck, if_pos (by rw [intDenoted_intSgn]; exact ⟨hlo, hhi⟩),
    intDenoted_intSgn]

theorem parse_bytes_encode {bs : List Nat} (hne : bs ≠ [])
    (hfit : bs.length < 2 ^ 64) (rest : List Nat) :
    parse_bytes (natDigits bs.length ++ 58 :: (bs ++ rest)) =
      .ok rest (.bytes bs) := by
  rw [parse_bytes_of_run (natDigits_ne_nil _) (natDigits_all _), natDigits_val]
  have hlen0 : bs.length ≠ 0 := fun h => hne (List.length_eq_zero.mp h)
  rw [if_pos hfit, if_neg hlen0,
    if_pos (by simp : bs.length ≤ (bs ++ rest).length)]
  rw [List.drop_left, List.take_left]

mutual
/-- Round trip for one document: on a buffer holding the canonical
encoding of a well-formed document followed by anything, the
dispatcher decodes exactly the document and leaves the tail. -/
theorem parse_value_encode :
    ∀ (d : Doc) (rest : List Nat) (fuel : Nat), docWF d = true →
      (encodeDoc d).length ≤ fuel →
      parse_value fuel (encodeDoc d ++ rest) = .ok rest (decodeDoc d)
  | .int n, rest, fuel, hwf, hf => by
    simp only [docWF, Bool.and_eq_true, decide_eq_true_eq] at hwf
    simp only [encodeDoc, List.length_cons] at hf
    obtain ⟨f, rfl⟩ : ∃ f, fuel = f + 1 := ⟨fuel - 1, by omega⟩
    simp only [encodeDoc, List.cons_append, List.append_assoc,
      List.singleton_append, List.nil_append]
    simp only [parse_value]
    have hb : parse_bytes (105 :: (intSgn n ++ (intDs n ++ 101 :: rest))) =
        .err (.nomErr (105 :: (intSgn n ++ (intDs n ++ 101 :: rest))) .digit) :=
      parse_bytes_err_of_head (by
        intro b hb
        simp only [List.head?_cons, Option.some.injEq] at hb
        subst hb
        rfl)
    simp only [hb, altOr_err_left, parse_integer_encode hwf.1 hwf.2 rest,
      altOr_ok_left, decodeDoc]
  | .bstr bs, rest, fuel, hwf, hf => by
    simp only [docWF, Bool.and_eq_true, Bool.not_eq_true', List.isEmpty_eq_false,
      decide_eq_true_eq] at hwf
    have h1 : (encodeDoc (.bstr bs)).length ≠ 0 := by
      simpa using encodeDoc_ne_nil (.bstr bs)
    obtain ⟨f, rfl⟩ : ∃ f, fuel = f + 1 := ⟨fuel - 1, by omega⟩
    simp only [encodeDoc, List.cons_append, List.append_assoc]
    simp only [parse_value]
    simp only [parse_bytes_encode hwf.1 hwf.2 rest, altOr_ok_left, decodeDoc]
  | .list ds, rest, fuel, hwf, hf => by
    simp only [docWF] at hwf
    simp only [encodeDoc, List.length_cons, List.length_append,
      List.length_singleton] at hf
    obtain ⟨f, rfl⟩ : ∃ f, fuel = f + 1 := ⟨fuel - 1, by omega⟩
    simp only [encodeDoc, List.cons_append, List.append_assoc,
      List.singleton_append, List.nil_append]
    simp only [parse_value]
    have hb : parse_bytes (108 :: (encodeDocs ds ++ 101 :: rest)) =
        .err (.nomErr (108 :: (encodeDocs ds ++ 101 :: rest)) .digit) :=
      parse_bytes_err_of_head (by
        intro b hb
        simp only [List.head?_cons, Option.some.injEq] at hb
        subst hb
        rfl)
    have hpc : pChar 108 (108 :: (encodeDocs ds ++ 101 :: rest)) =
        .ok (encodeDocs ds ++ 101 :: rest, 108) := by
      simp [pChar]
    simp only [hb, altOr_err_left, parse_integer_err_of_head
      (show (108 : Nat) ≠ 105 by omega), altOr_err_left, parse_listF, hpc,
      manyTillVal_encode ds rest f f hwf (by omega) (by omega),
      altOr_ok_left, decodeDoc]
  | .dict ps, rest, fuel, hwf, hf => by
    simp only [docWF] at hwf
    simp only [encodeDoc, List.length_cons, List.length_append,
      List.length_singleton] at hf
    obtain ⟨f, rfl⟩ : ∃ f, fuel = f + 1 := ⟨fuel - 1, by omega⟩
    simp only [encodeDoc, List.cons_append, List.append_assoc,
      List.singleton_append, List.nil_append]
    simp only [parse_value]
    have hb : parse_bytes (100 :: (encodePairs ps ++ 101 :: rest)) =
        .err (.nomErr (100 :: (encodePairs ps ++ 101 :: rest)) .digit) :=
      parse_bytes_err_of_head (by
        intro b hb
        simp only [List.head?_cons, Option.some.injEq] at hb
        subst hb
        rfl)
    have hpc : pChar 100 (100 :: (encodePairs ps ++ 101 :: rest)) =
        .ok (encodePairs ps ++ 101 :: rest, 100) := by
      simp [pChar]
    simp only [hb, altOr_err_left, parse_integer_err_of_head
      (show (100 : Nat) ≠ 105 by omega), altOr_err_left,
      parse_listF_err_of_head (show (100 : Nat) ≠ 108 by omega), altOr_err_left,
      parse_dictF, hpc,
      manyTillKV_encode ps rest f f hwf (by omega) (by omega),
      toPairs_decodePairsKV, decodeDoc]

/-- Round trip for the list body: `many_till` collects exactly the
encoded items up to the terminating `e`. -/
theorem manyTillVal_encode :
    ∀ (ds : Docs) (rest : List Nat) (fuel fv : Nat), docsWF ds = true →
      (encodeDocs ds).length < fuel → (encodeDocs ds).length ≤ fv →
      manyTillVal (parse_value fv) fuel (encodeDocs ds ++ 101 :: rest) =
        .ok rest (decodeDocs ds)
  | .nil, rest, fuel, fv, hwf, hfl, hfv => by
    obtain ⟨f, rfl⟩ : ∃ f, fuel = f + 1 := ⟨fuel - 1, by omega⟩
    simp only [encodeDocs, List.nil_append]
    have hpc : pChar 101 (101 :: rest) = .ok (rest, 101) := by simp [pChar]
    simp only [manyTillVal, hpc, decodeDocs]
  | .cons d ds, rest, fuel, fv, hwf, hfl, hfv => by
    simp only [docsWF, Bool.and_eq_true] at hwf
    simp only [encodeDocs, List.length_append] at hfl hfv
    obtain ⟨f, rfl⟩ : ∃ f, fuel = f + 1 := ⟨fuel - 1, by omega⟩
    simp only [encodeDocs, List.append_assoc]
    have hlen1 : 1 ≤ (encodeDoc d).length :=
      List.length_pos.mpr (encodeDoc_ne_nil d)
    obtain ⟨b, hb, hbne⟩ := encodeDoc_head d
    have hpc : pChar 101 (encodeDoc d ++ (encodeDocs ds ++ 101 :: rest)) =
        .error (.nomErr (encodeDoc d ++ (encodeDocs ds ++ 101 :: rest)) .char) :=
      pChar_err_of_head (by
        intro b2 hb2
        rw [head?_append_ne (encodeDoc_ne_nil d), hb] at hb2
        simp only [Option.some.injEq] at hb2
        subst hb2
        exact hbne)
    have hnel : ¬(encodeDocs ds ++ 101 :: rest).length =
        (encodeDoc d ++ (encodeDocs ds ++ 101 :: rest)).length := by
      simp only [List.length_append, List.length_cons]
      omega
    simp only [manyTillVal, hpc,
      parse_value_encode d (encodeDocs ds ++ 101 :: rest) fv hwf.1 (by omega),
      if_neg hnel,
      manyTillVal_encode ds rest f fv hwf.2 (by omega) (by omega), decodeDocs]

/-- Round trip for the dictionary body: `many_till` collects exactly
the encoded key/value pairs up to the terminating `e`, each key being
the `Bytes` value `parse_bytes` produced. -/
theorem manyTillKV_encode :
    ∀ (ps : Pairs) (rest : List Nat) (fuel fv : Nat), pairsWF ps = true →
      (encodePairs ps).length < fuel → (encodePairs ps).length ≤ fv →
      manyTillKV (parse_value fv) fuel (encodePairs ps ++ 101 :: rest) =
        .ok rest (decodePairsKV ps)
  | .nil, rest, fuel, fv, hwf, hfl, hfv => by
    obtain ⟨f, rfl⟩ : ∃ f, fuel = f + 1 := ⟨fuel - 1, by omega⟩
    simp only [encodePairs, List.nil_append]
    have hpc : pChar 101 (101 :: rest) = .ok (rest, 101) := by simp [pChar]
    simp only [manyTillKV, hpc, decodePairsKV]
  | .cons k d ps, rest, fuel, fv, hwf, hfl, hfv => by
    simp only [pairsWF, Bool.and_eq_true, Bool.not_eq_true',
      List.isEmpty_eq_false, decide_eq_true_eq] at hwf
    obtain ⟨⟨⟨hkne, hkfit⟩, hdwf⟩, hpwf⟩ := hwf
    simp only [encodePairs, List.length_append, List.length_cons] at hfl hfv
    obtain ⟨f, rfl⟩ : ∃ f, fuel = f + 1 := ⟨fuel - 1, by omega⟩
    have hknd : 1 ≤ (natDigits k.length).length :=
      List.length_pos.mpr (natDigits_ne_nil _)
    simp only [encodePairs, List.append_assoc, List.cons_append]
    have hpc : pChar 101 (natDigits k.length ++ 58 :: (k ++ (encodeDoc d ++
        (encodePairs ps ++ 101 :: rest)))) =
        .error (.nomErr (natDigits k.length ++ 58 :: (k ++ (encodeDoc d ++
          (encodePairs ps ++ 101 :: rest)))) .char) :=
      pChar_err_of_head (by
        intro b2 hb2
        rw [head?_append_ne (natDigits_ne_nil _)] at hb2
        obtain ⟨x, t, hx⟩ :=
          List.exists_cons_of_ne_nil (natDigits_ne_nil k.length)
        have hall := natDigits_all k.length
        rw [hx] at hall hb2
        simp only [List.all_cons, Bool.and_eq_true] at hall
        have := isDigitB_bounds hall.1
        simp only [List.head?_cons, Option.some.injEq] at hb2
        subst hb2
        omega)
    have hbytes := parse_bytes_encode hkne hkfit
      (encodeDoc d ++ (encodePairs ps ++ 101 :: rest))
    have hval := parse_value_encode d (encodePairs ps ++ 101 :: rest) fv hdwf
      (by omega)
    have hnel : ¬(encodePairs ps ++ 101 :: rest).length =
        (natDigits k.length ++ 58 :: (k ++ (encodeDoc d ++
          (encodePairs ps ++ 101 :: rest)))).length := by
      simp only [List.length_append, List.length_cons]
      omega
    simp only [manyTillKV, hpc, hbytes, hval, if_neg hnel,
      manyTillKV_encode ps rest f fv hpwf (by omega) (by omega), decodePairsKV]
end

/-! ### Last-write-wins behaviour of the `HashMap` model (C7) -/

/-- The value bound to `k` by the *last* occurrence of `k` in a pair
sequence, if any. -/
def lastAssoc (ps : List (List Nat × Value)) (k : List Nat) : Option Value :=
  (ps.reverse.find? (fun p => p.1 = k)).map (fun p => p.2)

theorem hmGet_cons (p : List Nat × Value) (m : List (List Nat × Value))
    (k : List Nat) :
    hmGet (p :: m) k = if p.1 = k then some p.2 else hmGet m k := by
  by_cases h : p.1 = k <;> simp [hmGet, List.find?_cons, h]

theorem hmGet_map_replace (m : List (List Nat × Value)) (k' k : List Nat)
    (v' : Value) (h : k' ≠ k) :
    hmGet (m.map (fun p => if p.1 = k' then (k', v') else p)) k = hmGet m k := by
  induction m with
  | nil => rfl
  | cons p m' ih =>
    by_cases hp : p.1 = k'
    · simp only [List.map_cons, if_pos hp]
      rw [hmGet_cons, hmGet_cons]
      rw [if_neg (show ((k', v') : List Nat × Value).1 ≠ k from h),
        if_neg (by rw [hp]; exact h)]
      exact ih
    · simp only [List.map_cons, if_neg hp]
      rw [hmGet_cons, hmGet_cons]
      by_cases hk : p.1 = k
      · simp [hk]
      · simp [hk, ih]

theorem hmGet_insert (m : List (List Nat × Value)) (k' : List Nat) (v' : Value)
    (k : List Nat) :
    hmGet (hmInsert m k' v') k = if k' = k then some v' else hmGet m k := by
  induction m with
  | nil =>
    unfold hmInsert
    rw [if_neg (by simp), List.nil_append, hmGet_cons]
  | cons p m' ih =>
    unfold hmInsert
    by_cases hp : p.1 = k'
    · rw [if_pos (by simp [List.any_cons, hp])]
      simp only [List.map_cons, if_pos hp]
      rw [hmGet_cons]
      by_cases hk : k' = k
      · simp [hk]
      · rw [if_neg (show ((k', v') : List Nat × Value).1 ≠ k from hk)]
        rw [hmGet_map_replace m' k' k v' hk, if_neg hk, hmGet_cons,
          if_neg (by rw [hp]; exact hk)]
    · by_cases hm : m'.any (fun q => q.1 = k') = true
      · rw [if_pos (by simp [List.any_cons, hm])]
        simp only [List.map_cons, if_neg hp]
        rw [hmGet_cons, hmGet_cons]
        by_cases hk : p.1 = k
        · have hk2 : k' ≠ k := by
            intro hcon
            exact hp (by rw [hk, hcon])
          simp [hk, hk2]
        · rw [if_neg hk, if_neg hk]
          have : hmInsert m' k' v' = m'.map
              (fun q => if q.1 = k' then (k', v') else q) := by
            unfold hmInsert
            rw [if_pos hm]
          rw [← this, ih]
      · rw [if_neg (by
          simp only [List.any_cons, Bool.or_eq_true, decide_eq_true_eq]
          rintro (h | h)
          · exact hp h
          · exact hm h)]
        rw [List.cons_append, hmGet_cons, hmGet_cons]
        by_cases hk : p.1 = k
        · have hk2 : k' ≠ k := by
            intro hcon
            exact hp (by rw [hk, hcon])
          simp [hk, hk2]
        · rw [if_neg hk]
          have : hmInsert m' k' v' = m' ++ [(k', v')] := by
            unfold hmInsert
            rw [if_neg (by simp_all)]
          rw [← this, ih, if_neg hk]

theorem lastAssoc_cons (p : List Nat × Value) (ps : List (List Nat × Value))
    (k : List Nat) :
    lastAssoc (p :: ps) k =
      match lastAssoc ps k with
      | some v => some v
      | none => if p.1 = k then some p.2 else none := by
  unfold lastAssoc
  rw [List.reverse_cons, List.find?_append]
  cases hf : (ps.reverse.find? (fun q => q.1 = k)) with
  | some q => simp [Option.or]
  | none =>
    simp only [Option.or, Option.map_none']
    by_cases hp : p.1 = k <;> simp [hp]

theorem hmGet_foldl (ps : List (List Nat × Value)) (m : List (List Nat × Value))
    (k : List Nat) :
    hmGet (ps.foldl (fun m p => hmInsert m p.1 p.2) m) k =
      match lastAssoc ps k with
      | some v => some v
      | none => hmGet m k := by
  induction ps generalizing m with
  | nil => simp [lastAssoc]
  | cons p ps' ih =>
    simp only [List.foldl_cons]
    rw [ih (hmInsert m p.1 p.2), hmGet_insert, lastAssoc_cons]
    cases lastAssoc ps' k with
    | some v => simp
    | none => by_cases hp : p.1 = k <;> simp [hp]

theorem hmGet_hmCollect (ps : List (List Nat × Value)) (k : List Nat) :
    hmGet (hmCollect ps) k = lastAssoc ps k := by
  unfold hmCollect
  rw [hmGet_foldl]
  cases h : lastAssoc ps k <;> simp [hmGet]

/-- `parse_dict` decodes every well-formed dictionary encoding,
duplicate keys included. -/
theorem parse_dict_encode (ps : Pairs) (rest : List Nat) (fuel : Nat)
    (hwf : pairsWF ps = true)
    (hf : (encodePairs ps).length + 2 ≤ fuel) :
    parse_dict fuel (encodeDoc (.dict ps) ++ rest) =
      .ok rest (.dictionary (hmCollect (decodePairs ps))) := by
  unfold parse_dict parse_dictF
  simp only [encodeDoc, List.cons_append, List.append_assoc,
    List.singleton_append, List.nil_append]
  have hpc : pChar 100 (100 :: (encodePairs ps ++ 101 :: rest)) =
      .ok (encodePairs ps ++ 101 :: rest, 100) := by
    simp [pChar]
  simp only [hpc,
    manyTillKV_encode ps rest fuel fuel hwf (by omega) (by omega),
    toPairs_decodePairsKV]

/-- C7: for every well-formed dictionary encoding in which the same
key occurs in more than one key position, `parse_dict` succeeds
(duplicate keys are not rejected) and the resulting dictionary maps
that key to the value of its last occurrence in the input
(last-write-wins). -/
theorem c7_dict_last_write_wins (ps : Pairs) (rest : List Nat) (fuel : Nat)
    (k : List Nat) (hwf : pairsWF ps = true)
    (hf : (encodePairs ps).length + 2 ≤ fuel)
    (_hdup : 1 < ((decodePairs ps).filter (fun p => p.1 = k)).length) :
    parse_dict fuel (encodeDoc (.dict ps) ++ rest) =
      .ok rest (.dictionary (hmCollect (decodePairs ps))) ∧
    hmGet (hmCollect (decodePairs ps)) k = lastAssoc (decodePairs ps) k :=
  ⟨parse_dict_encode ps rest fuel hwf hf, hmGet_hmCollect (decodePairs ps) k⟩

/-- Witness for C7 at the concrete encoding `d1:ai1e1:ai2ee` (key `a`
bound twice): the parse succeeds and the key maps to `Integer 2`, the
last occurrence. -/
theorem c7_witness :
    parse_dict 16 (encodeDoc (.dict (.cons [97] (.int 1)
        (.cons [97] (.int 2) .nil))) ++ []) =
      .ok [] (.dictionary (hmCollect (decodePairs (.cons [97] (.int 1)
        (.cons [97] (.int 2) .nil))))) ∧
    hmGet (hmCollect (decodePairs (.cons [97] (.int 1)
        (.cons [97] (.int 2) .nil)))) [97] =
      lastAssoc (decodePairs (.cons [97] (.int 1)
        (.cons [97] (.int 2) .nil))) [97] :=
  c7_dict_last_write_wins (.cons [97] (.int 1) (.cons [97] (.int 2) .nil))
    [] 16 [97] (by decide) (by decide) (by decide)

end Bencode
